import Mathlib

/-!
Verification of the web-content extraction and chunking core (vivian).

Strings are modelled as lists of characters (`Str`), so that every
operation is an executable, structurally recursive definition that the
kernel can evaluate.  Python string primitives (`str.split`,
`str.splitlines`, `str.strip`, `'sep'.join`, …) are embedded for the
ASCII whitespace repertoire actually exercised by the program; the
rarely-relevant Unicode-only whitespace code points (U+00A0, U+2028,
U+2029) are outside the model.
-/

/-- Strings as lists of characters. -/
abbrev Str := List Char

/-- Characters treated as whitespace by Python's `str.split()` / `str.strip()`
(ASCII repertoire plus U+0085). -/
def isPyWS (c : Char) : Bool :=
  c = ' ' || c = '\t' || c = '\n' || c = '\r' || c = '\x0b' || c = '\x0c' ||
  c = '\x1c' || c = '\x1d' || c = '\x1e' || c = '\x85'

/-- Characters on which Python's `str.splitlines()` breaks lines
(ASCII repertoire plus U+0085; `\r\n` is treated as a single break). -/
def pyLineBreak (c : Char) : Bool :=
  c = '\n' || c = '\r' || c = '\x0b' || c = '\x0c' ||
  c = '\x1c' || c = '\x1d' || c = '\x1e' || c = '\x85'

/-- Helper for `pySplit`: accumulates the current word (reversed) while
scanning.  Models Python's `str.split()` with no separator argument:
words are maximal runs of non-whitespace, empty results are dropped. -/
def pySplitAux : Str → Str → List Str
  | [], acc => if acc = [] then [] else [acc.reverse]
  | c :: rest, acc =>
    if isPyWS c then
      if acc = [] then pySplitAux rest []
      else acc.reverse :: pySplitAux rest []
    else pySplitAux rest (c :: acc)

/-- Python `s.split()` (whitespace tokenization, empties dropped). -/
def pySplit (s : Str) : List Str := pySplitAux s []

/-- Python `" ".join(words)`. -/
def pyJoinSpace : List Str → Str
  | [] => []
  | [w] => w
  | w :: ws => w ++ ' ' :: pyJoinSpace ws

/-- A word produced by whitespace tokenization: non-empty and free of
whitespace characters. -/
def wordOk (w : Str) : Bool := !w.isEmpty && w.all (fun c => !isPyWS c)

/-! ### The chunk splitter

`split_content_to_chunks` from `utility_functions.py`.  The Python code
performs `total_words // num_messages` with no guard; when
`num_messages = 0` (empty content) or `max_message_size = 0` Python
raises `ZeroDivisionError`, which the embedding models as `none`. -/

/-- The word-distribution loop of `split_content_to_chunks`: build `n`
messages; while `extra` (the counter of messages receiving one
additional word, i.e. the Python test `i < extra_words`) is positive the
message takes `base + 1` words, afterwards `base` words; each message's
text is its words joined by single spaces. -/
def chunkLoop (words : List Str) (base : Nat) : Nat → Nat → List Str
  | _, 0 => []
  | 0, Nat.succ n =>
      pyJoinSpace (words.take base) :: chunkLoop (words.drop base) base 0 n
  | Nat.succ e, Nat.succ n =>
      pyJoinSpace (words.take (base + 1)) :: chunkLoop (words.drop (base + 1)) base e n

/-- `split_content_to_chunks(content, max_message_size)` from
`utility_functions.py` (lines 241-281).  `none` models a Python
`ZeroDivisionError` (the unguarded `//` by `num_messages = 0`, reached
exactly when the content is empty, or the ceiling division by a zero
`max_message_size`). -/
def split_content_to_chunks (content : Str) (max_message_size : Nat) : Option (List Str) :=
  if max_message_size = 0 then none
  else
    let num_messages := (content.length + max_message_size - 1) / max_message_size
    let words := pySplit content
    let total_words := words.length
    if num_messages = 0 then none
    else
      some (chunkLoop words (total_words / num_messages) (total_words % num_messages) num_messages)

/-! ### Lemmas about `pySplit` and `pyJoinSpace` -/

theorem revAcc_wordOk (acc : Str) (hacc : acc.all (fun c => !isPyWS c) = true)
    (h : acc ≠ []) : wordOk acc.reverse = true := by
  rw [wordOk, Bool.and_eq_true]
  constructor
  · simp [List.isEmpty_iff, h]
  · rw [List.all_reverse]; exact hacc

theorem pySplitAux_words_ok : ∀ (s acc : Str), acc.all (fun c => !isPyWS c) = true →
    ∀ w ∈ pySplitAux s acc, wordOk w = true := by
  intro s
  induction s with
  | nil =>
    intro acc hacc w hw
    simp only [pySplitAux] at hw
    by_cases h : acc = []
    · rw [if_pos h] at hw; simp at hw
    · rw [if_neg h] at hw
      rw [List.mem_singleton] at hw
      subst hw
      exact revAcc_wordOk acc hacc h
  | cons c rest ih =>
    intro acc hacc w hw
    simp only [pySplitAux] at hw
    by_cases hc : isPyWS c = true
    · rw [if_pos hc] at hw
      by_cases h : acc = []
      · rw [if_pos h] at hw
        exact ih [] rfl w hw
      · rw [if_neg h] at hw
        rcases List.mem_cons.mp hw with hw | hw
        · subst hw
          exact revAcc_wordOk acc hacc h
        · exact ih [] rfl w hw
    · rw [if_neg hc] at hw
      refine ih (c :: acc) ?_ w hw
      have hc' : isPyWS c = false := by
        cases hcc : isPyWS c
        · rfl
        · exact absurd hcc hc
      simp [hacc, hc']

/-- Every token produced by `pySplit` is non-empty and whitespace-free. -/
theorem pySplit_words_ok (s : Str) : ∀ w ∈ pySplit s, wordOk w = true :=
  pySplitAux_words_ok s [] rfl

theorem pySplitAux_append_word : ∀ (w : Str), w.all (fun c => !isPyWS c) = true →
    ∀ (s acc : Str), pySplitAux (w ++ s) acc = pySplitAux s (w.reverse ++ acc) := by
  intro w
  induction w with
  | nil => intro _ s acc; simp
  | cons c t ih =>
    intro hall s acc
    simp only [List.all_cons, Bool.and_eq_true] at hall
    have hc : isPyWS c = false := by
      cases h : isPyWS c
      · rfl
      · rw [h] at hall; simp at hall
    calc pySplitAux ((c :: t) ++ s) acc = pySplitAux (t ++ s) (c :: acc) := by
          simp only [List.cons_append, pySplitAux, hc]
          rw [if_neg (by simp)]
          rfl
      _ = pySplitAux s (t.reverse ++ (c :: acc)) := ih hall.2 s (c :: acc)
      _ = pySplitAux s ((c :: t).reverse ++ acc) := by simp

/-- Round trip: splitting a single-space join of proper words restores them. -/
theorem pySplit_join (ws : List Str) (h : ∀ w ∈ ws, wordOk w = true) :
    pySplit (pyJoinSpace ws) = ws := by
  induction ws with
  | nil => rfl
  | cons w ws ih =>
    have hw := h w (by simp)
    rw [wordOk, Bool.and_eq_true] at hw
    obtain ⟨hne, hwall⟩ := hw
    have hwne : w ≠ [] := by
      intro h0; subst h0; simp at hne
    cases ws with
    | nil =>
      show pySplitAux w [] = [w]
      have h0 := pySplitAux_append_word w hwall [] []
      simp only [List.append_nil] at h0
      rw [h0]
      simp only [pySplitAux]
      have : w.reverse ≠ [] := by simpa using hwne
      simp [this]
    | cons w' ws' =>
      show pySplitAux (w ++ ' ' :: pyJoinSpace (w' :: ws')) [] = w :: w' :: ws'
      rw [pySplitAux_append_word w hwall _ []]
      simp only [List.append_nil, pySplitAux]
      have hsp : isPyWS ' ' = true := rfl
      have hrev : w.reverse ≠ [] := by simpa using hwne
      rw [if_pos hsp, if_neg hrev]
      rw [List.reverse_reverse]
      rw [show pySplitAux (pyJoinSpace (w' :: ws')) [] = pySplit (pyJoinSpace (w' :: ws')) from rfl]
      rw [ih (fun x hx => h x (by simp [hx]))]

/-! ### Lemmas about `chunkLoop` -/

theorem chunkLoop_length : ∀ (n e : Nat) (ws : List Str) (b : Nat),
    (chunkLoop ws b e n).length = n := by
  intro n
  induction n with
  | zero => intro e ws b; cases e <;> rfl
  | succ n ih =>
    intro e ws b
    cases e with
    | zero => simp [chunkLoop, ih]
    | succ e => simp [chunkLoop, ih]

theorem chunkLoop_flatten : ∀ (n e : Nat) (ws : List Str) (b : Nat),
    e ≤ n → ws.length = n * b + e → (∀ w ∈ ws, wordOk w = true) →
    ((chunkLoop ws b e n).map pySplit).flatten = ws := by
  intro n
  induction n with
  | zero =>
    intro e ws b he hlen _
    interval_cases e
    simp only [Nat.zero_mul, Nat.add_zero] at hlen
    rw [List.length_eq_zero] at hlen
    subst hlen
    rfl
  | succ n ih =>
    intro e ws b he hlen hok
    cases e with
    | zero =>
      simp only [chunkLoop, List.map_cons, List.flatten_cons]
      have htake : ∀ w ∈ ws.take b, wordOk w = true :=
        fun w hw => hok w (List.take_subset _ _ hw)
      rw [pySplit_join _ htake]
      rw [ih 0 (ws.drop b) b (Nat.zero_le n) ?_ (fun w hw => hok w (List.drop_subset _ _ hw))]
      · exact List.take_append_drop b ws
      · rw [List.length_drop, hlen, Nat.succ_mul]
        omega
    | succ e =>
      simp only [chunkLoop, List.map_cons, List.flatten_cons]
      have htake : ∀ w ∈ ws.take (b + 1), wordOk w = true :=
        fun w hw => hok w (List.take_subset _ _ hw)
      rw [pySplit_join _ htake]
      rw [ih e (ws.drop (b + 1)) b (by omega) ?_ (fun w hw => hok w (List.drop_subset _ _ hw))]
      · exact List.take_append_drop (b + 1) ws
      · rw [List.length_drop, hlen, Nat.succ_mul]
        omega

theorem chunkLoop_get : ∀ (n e : Nat) (ws : List Str) (b : Nat),
    e ≤ n → ∀ i, i < n →
    (chunkLoop ws b e n)[i]? =
      some (pyJoinSpace ((ws.drop (i * b + min i e)).take (b + if i < e then 1 else 0))) := by
  intro n
  induction n with
  | zero => intro e ws b _ i hi; omega
  | succ n ih =>
    intro e ws b he i hi
    cases e with
    | zero =>
      cases i with
      | zero => simp [chunkLoop]
      | succ i =>
        simp only [chunkLoop, List.getElem?_cons_succ]
        rw [ih 0 (ws.drop b) b (Nat.zero_le n) i (by omega)]
        have hd : (ws.drop b).drop (i * b + min i 0) =
            ws.drop ((i + 1) * b + min (i + 1) 0) := by
          rw [List.drop_drop]
          congr 1
          rw [Nat.succ_mul]
          omega
        have hc : (b + if i + 1 < 0 then 1 else 0) = (b + if i < 0 then 1 else 0) := by
          simp
        rw [hd, ← hc]
    | succ e =>
      cases i with
      | zero => simp [chunkLoop]
      | succ i =>
        simp only [chunkLoop, List.getElem?_cons_succ]
        rw [ih e (ws.drop (b + 1)) b (by omega) i (by omega)]
        have hd : (ws.drop (b + 1)).drop (i * b + min i e) =
            ws.drop ((i + 1) * b + min (i + 1) (e + 1)) := by
          rw [List.drop_drop]
          congr 1
          rw [Nat.succ_mul]
          omega
        have hc : (if i + 1 < e + 1 then 1 else 0) = (if i < e then 1 else 0) := by
          simp [Nat.succ_lt_succ_iff]
        rw [hd, ← hc]

theorem chunkLoop_mem_wordcount : ∀ (n e : Nat) (ws : List Str) (b : Nat),
    (∀ w ∈ ws, wordOk w = true) →
    ∀ c ∈ chunkLoop ws b e n, (pySplit c).length ≤ b + 1 := by
  intro n
  induction n with
  | zero => intro e ws b _ c hc; cases e <;> simp [chunkLoop] at hc
  | succ n ih =>
    intro e ws b hok c hc
    cases e with
    | zero =>
      simp only [chunkLoop, List.mem_cons] at hc
      rcases hc with hc | hc
      · subst hc
        rw [pySplit_join _ (fun w hw => hok w (List.take_subset _ _ hw))]
        calc (ws.take b).length ≤ b := by simp
          _ ≤ b + 1 := by omega
      · exact ih 0 (ws.drop b) b (fun w hw => hok w (List.drop_subset _ _ hw)) c hc
    | succ e =>
      simp only [chunkLoop, List.mem_cons] at hc
      rcases hc with hc | hc
      · subst hc
        rw [pySplit_join _ (fun w hw => hok w (List.take_subset _ _ hw))]
        simp
      · exact ih e (ws.drop (b + 1)) b (fun w hw => hok w (List.drop_subset _ _ hw)) c hc

theorem chunkLoop_wordcount_exact : ∀ (n e : Nat) (ws : List Str) (b : Nat),
    e ≤ n → ws.length = n * b + e → (∀ w ∈ ws, wordOk w = true) →
    ∀ i, i < n →
    ((chunkLoop ws b e n)[i]?.map (fun c => (pySplit c).length)) =
      some (b + if i < e then 1 else 0) := by
  intro n e ws b he hlen hok i hi
  rw [chunkLoop_get n e ws b he i hi]
  simp only [Option.map_some']
  congr 1
  rw [pySplit_join _ (fun w hw =>
    hok w (List.drop_subset _ _ (List.take_subset _ _ hw)))]
  rw [List.length_take, List.length_drop, hlen]
  have hmul : i * b + b ≤ n * b := by
    have h1 : i + 1 ≤ n := hi
    calc i * b + b = (i + 1) * b := by rw [Nat.succ_mul]
      _ ≤ n * b := Nat.mul_le_mul_right b h1
  rcases Nat.lt_or_ge i e with h | h
  · rw [show min i e = i from Nat.min_eq_left (by omega)]
    simp only [if_pos h]
    have hrem : b + 1 ≤ n * b + e - (i * b + i) := by omega
    rw [Nat.min_eq_left hrem]
  · rw [show min i e = e from Nat.min_eq_right (by omega)]
    rw [if_neg (by omega)]
    have hrem : b + 0 ≤ n * b + e - (i * b + e) := by omega
    rw [Nat.min_eq_left hrem]

theorem split_content_some (T : Str) (M : Nat) (hT : T ≠ []) (hM : 0 < M) :
    split_content_to_chunks T M =
      some (chunkLoop (pySplit T)
        ((pySplit T).length / ((T.length + M - 1) / M))
        ((pySplit T).length % ((T.length + M - 1) / M))
        ((T.length + M - 1) / M)) ∧
    0 < (T.length + M - 1) / M := by
  have hlen : 0 < T.length := List.length_pos.mpr hT
  have hnum : 0 < (T.length + M - 1) / M := Nat.div_pos (by omega) hM
  constructor
  · simp only [split_content_to_chunks]
    rw [if_neg (by omega), if_neg (by omega)]
  · exact hnum

/-! ### Claims C1-C4 -/

/-- C1: for every non-empty input string and positive chunk-size bound,
the chunks returned by `split_content_to_chunks` have word lists that,
concatenated in order, are exactly the whitespace-tokenized word list of
the input, and the chunk word counts sum to the total word count: no
word is duplicated or dropped. -/
theorem C1_chunking_lossless (T : Str) (M : Nat) (hT : T ≠ []) (hM : 0 < M) :
    ∃ cs, split_content_to_chunks T M = some cs ∧
      (cs.map pySplit).flatten = pySplit T ∧
      (cs.map (fun c => (pySplit c).length)).sum = (pySplit T).length := by
  obtain ⟨hsome, hnum⟩ := split_content_some T M hT hM
  have he : (pySplit T).length % ((T.length + M - 1) / M) ≤ (T.length + M - 1) / M :=
    Nat.le_of_lt (Nat.mod_lt _ hnum)
  have hlen : (pySplit T).length =
      ((T.length + M - 1) / M) * ((pySplit T).length / ((T.length + M - 1) / M)) +
        (pySplit T).length % ((T.length + M - 1) / M) :=
    (Nat.div_add_mod (pySplit T).length ((T.length + M - 1) / M)).symm
  have hflat := chunkLoop_flatten ((T.length + M - 1) / M)
    ((pySplit T).length % ((T.length + M - 1) / M)) (pySplit T)
    ((pySplit T).length / ((T.length + M - 1) / M)) he hlen (pySplit_words_ok T)
  refine ⟨_, hsome, hflat, ?_⟩
  have h1 := congrArg List.length hflat
  rw [List.length_flatten, List.map_map] at h1
  exact h1

/-- C1 witness: concrete instance with input "aa bb c" and bound 3. -/
theorem C1_chunking_lossless_witness :
    ("aa bb c".toList ≠ [] ∧ 0 < 3) ∧
      (∃ cs, split_content_to_chunks "aa bb c".toList 3 = some cs ∧
        (cs.map pySplit).flatten = pySplit "aa bb c".toList ∧
        (cs.map (fun c => (pySplit c).length)).sum = (pySplit "aa bb c".toList).length) :=
  ⟨⟨by decide, by decide⟩, C1_chunking_lossless "aa bb c".toList 3 (by decide) (by decide)⟩

/-- C2 (code bug): `split_content_to_chunks` applied to the empty string does
not return an empty chunk sequence; `num_messages` evaluates to 0 and Python
raises `ZeroDivisionError` at `total_words // num_messages` (modelled as
`none`), for the default bound 8192 and in fact for every bound. -/
theorem C2_empty_input_is_error :
    split_content_to_chunks [] 8192 = none ∧
      ∀ M : Nat, split_content_to_chunks [] M = none := by
  refine ⟨rfl, ?_⟩
  intro M
  by_cases hM : M = 0
  · simp [split_content_to_chunks, hM]
  · have h0 : (M - 1) / M = 0 := Nat.div_eq_of_lt (by omega)
    simp [split_content_to_chunks, hM, h0]

/-- C3 is false as stated: with input "abcdefgh" (a single 8-character word)
and bound 4, the splitter returns the chunks ["abcdefgh", ""], whose first
chunk has character length 8 > 4.  Chunks are balanced by word count, not
bounded by character count. -/
theorem C3_counterexample :
    split_content_to_chunks "abcdefgh".toList 4 = some ["abcdefgh".toList, []] ∧
      ¬ (∀ cs, split_content_to_chunks "abcdefgh".toList 4 = some cs →
          ∀ c ∈ cs, c.length ≤ 4) := by
  constructor
  · rfl
  · intro h
    have := h ["abcdefgh".toList, []] rfl "abcdefgh".toList (by decide)
    revert this
    decide

/-- C3 amended: every chunk is bounded in the number of words it carries
(at most `base + 1 = totalWords / numChunks + 1` words); the character
length of a chunk's text is not bounded by the configured maximum. -/
theorem C3_chunk_word_bound (T : Str) (M : Nat) (hT : T ≠ []) (hM : 0 < M) :
    ∃ cs, split_content_to_chunks T M = some cs ∧
      ∀ c ∈ cs, (pySplit c).length ≤
        (pySplit T).length / ((T.length + M - 1) / M) + 1 := by
  obtain ⟨hsome, _⟩ := split_content_some T M hT hM
  exact ⟨_, hsome, chunkLoop_mem_wordcount _ _ _ _ (pySplit_words_ok T)⟩

/-- C3 witness: concrete instance with input "abcdefgh" and bound 4. -/
theorem C3_chunk_word_bound_witness :
    ("abcdefgh".toList ≠ [] ∧ 0 < 4) ∧
      (∃ cs, split_content_to_chunks "abcdefgh".toList 4 = some cs ∧
        ∀ c ∈ cs, (pySplit c).length ≤
          (pySplit "abcdefgh".toList).length /
            (("abcdefgh".toList.length + 4 - 1) / 4) + 1) :=
  ⟨⟨by decide, by decide⟩, C3_chunk_word_bound "abcdefgh".toList 4 (by decide) (by decide)⟩

/-- C4: for non-empty input and positive bound, the splitter returns exactly
`numChunks = ceil(len(T)/M)` chunks; chunk `i` is the contiguous slice of the
word sequence starting at `i*base + min i remainder` of length `base + 1` when
`i < remainder` and `base` otherwise (so the first `remainder` chunks carry one
extra word), joined by single spaces; its word count is exactly that length. -/
theorem C4_chunk_distribution (T : Str) (M : Nat) (hT : T ≠ []) (hM : 0 < M) :
    ∃ cs, split_content_to_chunks T M = some cs ∧
      cs.length = (T.length + M - 1) / M ∧
      (∀ i, i < (T.length + M - 1) / M →
        cs[i]? = some (pyJoinSpace
          (((pySplit T).drop
              (i * ((pySplit T).length / ((T.length + M - 1) / M)) +
                min i ((pySplit T).length % ((T.length + M - 1) / M)))).take
            ((pySplit T).length / ((T.length + M - 1) / M) +
              if i < (pySplit T).length % ((T.length + M - 1) / M) then 1 else 0)))) ∧
      (∀ i, i < (T.length + M - 1) / M →
        (cs[i]?.map (fun c => (pySplit c).length)) =
          some ((pySplit T).length / ((T.length + M - 1) / M) +
            if i < (pySplit T).length % ((T.length + M - 1) / M) then 1 else 0)) := by
  obtain ⟨hsome, hnum⟩ := split_content_some T M hT hM
  have he : (pySplit T).length % ((T.length + M - 1) / M) ≤ (T.length + M - 1) / M :=
    Nat.le_of_lt (Nat.mod_lt _ hnum)
  have hlen : (pySplit T).length =
      ((T.length + M - 1) / M) * ((pySplit T).length / ((T.length + M - 1) / M)) +
        (pySplit T).length % ((T.length + M - 1) / M) :=
    (Nat.div_add_mod (pySplit T).length ((T.length + M - 1) / M)).symm
  refine ⟨_, hsome, chunkLoop_length _ _ _ _, ?_, ?_⟩
  · intro i hi
    exact chunkLoop_get _ _ _ _ he i hi
  · intro i hi
    exact chunkLoop_wordcount_exact _ _ _ _ he hlen (pySplit_words_ok T) i hi

/-- C4 witness: concrete instance with input "aa bb cc d" and bound 4
(three chunks, remainder 1). -/
theorem C4_chunk_distribution_witness :
    ("aa bb cc d".toList ≠ [] ∧ 0 < 4) ∧
      (∃ cs, split_content_to_chunks "aa bb cc d".toList 4 = some cs ∧
        cs.length = ("aa bb cc d".toList.length + 4 - 1) / 4 ∧
        (∀ i, i < ("aa bb cc d".toList.length + 4 - 1) / 4 →
          cs[i]? = some (pyJoinSpace
            (((pySplit "aa bb cc d".toList).drop
                (i * ((pySplit "aa bb cc d".toList).length /
                    (("aa bb cc d".toList.length + 4 - 1) / 4)) +
                  min i ((pySplit "aa bb cc d".toList).length %
                    (("aa bb cc d".toList.length + 4 - 1) / 4)))).take
              ((pySplit "aa bb cc d".toList).length /
                  (("aa bb cc d".toList.length + 4 - 1) / 4) +
                if i < (pySplit "aa bb cc d".toList).length %
                    (("aa bb cc d".toList.length + 4 - 1) / 4) then 1 else 0)))) ∧
        (∀ i, i < ("aa bb cc d".toList.length + 4 - 1) / 4 →
          (cs[i]?.map (fun c => (pySplit c).length)) =
            some ((pySplit "aa bb cc d".toList).length /
                (("aa bb cc d".toList.length + 4 - 1) / 4) +
              if i < (pySplit "aa bb cc d".toList).length %
                  (("aa bb cc d".toList.length + 4 - 1) / 4) then 1 else 0))) :=
  ⟨⟨by decide, by decide⟩,
    C4_chunk_distribution "aa bb cc d".toList 4 (by decide) (by decide)⟩

/-! ### Whitespace normalization (text extractor)

The cleanup in `get_webpage_text` (web_client.py lines 365-368):
`lines = (line.strip() for line in text.splitlines())`,
`chunks = (phrase.strip() for line in lines for phrase in line.split("  "))`,
`text = ' '.join(chunk for chunk in chunks if chunk)`. -/

/-- Helper for `pySplitlines`: accumulates the current line (reversed).
Models Python's `str.splitlines()`: breaks at the `pyLineBreak`
characters, treats `\r\n` as a single break, drops the final empty line. -/
def pySplitlinesAux : Str → Str → List Str
  | [], acc => if acc = [] then [] else [acc.reverse]
  | '\r' :: '\n' :: rest, acc => acc.reverse :: pySplitlinesAux rest []
  | c :: rest, acc =>
    if pyLineBreak c then acc.reverse :: pySplitlinesAux rest []
    else pySplitlinesAux rest (c :: acc)

/-- Python `s.splitlines()`. -/
def pySplitlines (s : Str) : List Str := pySplitlinesAux s []

/-- Right-hand strip: remove the trailing run of whitespace. -/
def pyStripRight : Str → Str
  | [] => []
  | c :: rest =>
    let r := pyStripRight rest
    if r = [] && isPyWS c then [] else c :: r

/-- Python `s.strip()`: drop leading and trailing whitespace. -/
def pyStrip (s : Str) : Str := (pyStripRight s).dropWhile isPyWS

/-- Python `s.split("  ")`: split on non-overlapping occurrences of two
consecutive spaces, scanning left to right, keeping empty fragments.
A character that does not open a separator is prepended to the first
fragment of the split of the remainder (which is always non-empty, see
`splitTwoSpaces_ne_nil`; `headD`/`tail` express that prepending). -/
def splitTwoSpaces : Str → List Str
  | [] => [[]]
  | [c] => [[c]]
  | c1 :: c2 :: rest =>
    if c1 = ' ' && c2 = ' ' then [] :: splitTwoSpaces rest
    else
      let f := splitTwoSpaces (c2 :: rest)
      (c1 :: f.headD []) :: f.tail

/-- The whitespace cleanup of `get_webpage_text` (web_client.py 365-368). -/
def normalizeWhitespace (text : Str) : Str :=
  let lines := (pySplitlines text).map pyStrip
  let phrases := (lines.map (fun line => (splitTwoSpaces line).map pyStrip)).flatten
  pyJoinSpace (phrases.filter (fun p => !p.isEmpty))

/-- No two consecutive space characters occur. -/
def noDoubleSpace : Str → Bool
  | [] => true
  | [_] => true
  | c1 :: c2 :: rest => !(c1 = ' ' && c2 = ' ') && noDoubleSpace (c2 :: rest)

/-- Some two consecutive whitespace characters occur. -/
def hasConsecutiveWS : Str → Bool
  | [] => false
  | [_] => false
  | c1 :: c2 :: rest => (isPyWS c1 && isPyWS c2) || hasConsecutiveWS (c2 :: rest)

theorem noDoubleSpace_tail {c : Char} {rest : Str}
    (h : noDoubleSpace (c :: rest) = true) : noDoubleSpace rest = true := by
  cases rest with
  | nil => rfl
  | cons d t =>
    rw [noDoubleSpace, Bool.and_eq_true] at h
    exact h.2

theorem boolNotTrue {b : Bool} (h : ¬ b = true) : b = false := by
  cases b
  · rfl
  · exact absurd rfl h

theorem splitTwoSpaces_ne_nil (s : Str) : splitTwoSpaces s ≠ [] := by
  induction s using splitTwoSpaces.induct with
  | case1 => simp [splitTwoSpaces]
  | case2 => simp [splitTwoSpaces]
  | case3 c1 c2 rest hsep ih =>
    simp only [splitTwoSpaces]
    rw [if_pos hsep]
    simp
  | case4 c1 c2 rest hsep ih =>
    simp only [splitTwoSpaces]
    rw [if_neg hsep]
    simp

theorem splitTwoSpaces_head : ∀ (s : Str) (f : Str) (fs : List Str),
    splitTwoSpaces s = f :: fs → f = [] ∨ f.head? = s.head? := by
  intro s
  induction s using splitTwoSpaces.induct with
  | case1 =>
    intro f fs h
    simp only [splitTwoSpaces] at h
    cases h
    left; rfl
  | case2 c =>
    intro f fs h
    simp only [splitTwoSpaces] at h
    cases h
    right; rfl
  | case3 c1 c2 rest hsep ih =>
    intro f fs h
    simp only [splitTwoSpaces] at h
    rw [if_pos hsep] at h
    cases h
    left; rfl
  | case4 c1 c2 rest hsep ih =>
    intro f fs h
    simp only [splitTwoSpaces] at h
    rw [if_neg hsep] at h
    cases h
    right; rfl

theorem splitTwoSpaces_noDS : ∀ (s : Str), ∀ f ∈ splitTwoSpaces s,
    noDoubleSpace f = true := by
  intro s
  induction s using splitTwoSpaces.induct with
  | case1 =>
    intro f hf
    simp only [splitTwoSpaces, List.mem_singleton] at hf
    subst hf; rfl
  | case2 c =>
    intro f hf
    simp only [splitTwoSpaces, List.mem_singleton] at hf
    subst hf; rfl
  | case3 c1 c2 rest hsep ih =>
    intro f hf
    simp only [splitTwoSpaces] at hf
    rw [if_pos hsep] at hf
    rcases List.mem_cons.mp hf with hf | hf
    · subst hf; rfl
    · exact ih f hf
  | case4 c1 c2 rest hsep ih =>
    intro f hf
    simp only [splitTwoSpaces] at hf
    rw [if_neg hsep] at hf
    rcases h2 : splitTwoSpaces (c2 :: rest) with _ | ⟨f0, fs0⟩
    · exact absurd h2 (splitTwoSpaces_ne_nil _)
    · rw [h2] at hf
      simp only [List.headD_cons, List.tail_cons] at hf
      rcases List.mem_cons.mp hf with hf | hf
      · subst hf
        have hfalse : (decide (c1 = ' ') && decide (c2 = ' ')) = false := boolNotTrue hsep
        rcases splitTwoSpaces_head (c2 :: rest) f0 fs0 h2 with h0 | h0
        · subst h0; rfl
        · have hf0 : noDoubleSpace f0 = true := ih f0 (by rw [h2]; simp)
          cases f0 with
          | nil => rfl
          | cons x t =>
            have hx : x = c2 := by
              rw [List.head?_cons, List.head?_cons] at h0
              exact Option.some.inj h0
            simp only [noDoubleSpace, Bool.and_eq_true]
            constructor
            · rw [hx, show (decide (c1 = ' ') && decide (c2 = ' ')) = false from hfalse]
              rfl
            · exact hf0
      · exact ih f (by rw [h2]; exact List.mem_cons_of_mem _ hf)

/-! ### Properties of stripping, splitting and joining -/

/-- The optional character is absent or not whitespace. -/
def optNotWS : Option Char → Bool
  | none => true
  | some c => !isPyWS c

theorem optNotWS_ne_space {o : Option Char} {x : Char} (h : optNotWS o = true)
    (hx : o = some x) : ¬ x = ' ' := by
  subst hx
  intro h0
  subst h0
  exact absurd h (by decide)

theorem dropWhile_head_not (p : Char → Bool) : ∀ (l : Str),
    ((l.dropWhile p).head?.map p).getD false = false := by
  intro l
  induction l with
  | nil => rfl
  | cons c rest ih =>
    rw [List.dropWhile_cons]
    by_cases hc : p c = true
    · rw [if_pos hc]; exact ih
    · rw [if_neg hc]
      simp [boolNotTrue hc]

theorem dropWhileWS_head (l : Str) :
    optNotWS ((l.dropWhile isPyWS).head?) = true := by
  have h := dropWhile_head_not isPyWS l
  cases hh : (l.dropWhile isPyWS).head? with
  | none => rfl
  | some c =>
    rw [hh] at h
    simp only [Option.map_some', Option.getD_some] at h
    simp [optNotWS, h]

theorem stripRight_last (l : Str) : optNotWS ((pyStripRight l).getLast?) = true := by
  induction l with
  | nil => rfl
  | cons c rest ih =>
    simp only [pyStripRight]
    by_cases hcond : (decide (pyStripRight rest = []) && isPyWS c) = true
    · rw [if_pos hcond]; rfl
    · rw [if_neg hcond]
      cases hr : pyStripRight rest with
      | nil =>
        have hc : isPyWS c = false := by
          rw [hr] at hcond
          revert hcond
          cases hic : isPyWS c <;> simp
        simp [optNotWS, hc]
      | cons x t =>
        rw [List.getLast?_cons_cons]
        rw [← hr]
        exact ih

theorem stripRight_head (l : Str) :
    pyStripRight l = [] ∨ (pyStripRight l).head? = l.head? := by
  cases l with
  | nil => left; rfl
  | cons c rest =>
    simp only [pyStripRight]
    by_cases hcond : (decide (pyStripRight rest = []) && isPyWS c) = true
    · rw [if_pos hcond]; left; rfl
    · rw [if_neg hcond]; right; rfl

theorem dropWhile_last_all (p : Char → Bool) : ∀ (l : Str),
    optNotWS l.getLast? = true → optNotWS ((l.dropWhile p).getLast?) = true := by
  intro l
  induction l with
  | nil => intro _; rfl
  | cons c rest ih =>
    intro h
    rw [List.dropWhile_cons]
    by_cases hc : p c = true
    · rw [if_pos hc]
      apply ih
      cases rest with
      | nil => rfl
      | cons d t => rw [← List.getLast?_cons_cons (a := c)]; exact h
    · rw [if_neg hc]
      exact h

theorem noDS_dropWhile (p : Char → Bool) : ∀ (l : Str),
    noDoubleSpace l = true → noDoubleSpace (l.dropWhile p) = true := by
  intro l
  induction l with
  | nil => intro _; rfl
  | cons c rest ih =>
    intro h
    rw [List.dropWhile_cons]
    by_cases hc : p c = true
    · rw [if_pos hc]
      exact ih (noDoubleSpace_tail h)
    · rw [if_neg hc]
      exact h

theorem noDS_cons_cons {c d : Char} {t : Str} :
    noDoubleSpace (c :: d :: t) = true ↔
      ((!(decide (c = ' ') && decide (d = ' '))) = true ∧
        noDoubleSpace (d :: t) = true) := by
  simp only [noDoubleSpace, Bool.and_eq_true]

theorem noDS_stripRight : ∀ (l : Str),
    noDoubleSpace l = true → noDoubleSpace (pyStripRight l) = true := by
  intro l
  induction l with
  | nil => intro _; rfl
  | cons c rest ih =>
    intro h
    simp only [pyStripRight]
    by_cases hcond : (decide (pyStripRight rest = []) && isPyWS c) = true
    · rw [if_pos hcond]; rfl
    · rw [if_neg hcond]
      have hr : noDoubleSpace (pyStripRight rest) = true := ih (noDoubleSpace_tail h)
      cases hrr : pyStripRight rest with
      | nil => rfl
      | cons x t =>
        rcases stripRight_head rest with h0 | h0
        · rw [h0] at hrr; cases hrr
        · rw [hrr] at h0
          cases rest with
          | nil => simp at h0
          | cons y t2 =>
            rw [List.head?_cons, List.head?_cons] at h0
            have hx : x = y := Option.some.inj h0
            rw [noDS_cons_cons]
            constructor
            · rw [hx]
              rw [noDS_cons_cons] at h
              exact h.1
            · rw [← hrr]
              exact hr

theorem pairNotSpace {c d : Char} (h : ¬(c = ' ' ∧ d = ' ')) :
    (!(decide (c = ' ') && decide (d = ' '))) = true := by
  by_cases hc : c = ' '
  · by_cases hd : d = ' '
    · exact absurd ⟨hc, hd⟩ h
    · simp [hc, hd]
  · simp [hc]

theorem noDS_append : ∀ (a b : Str), noDoubleSpace a = true → noDoubleSpace b = true →
    (∀ x y, a.getLast? = some x → b.head? = some y → ¬(x = ' ' ∧ y = ' ')) →
    noDoubleSpace (a ++ b) = true := by
  intro a
  induction a with
  | nil => intro b _ hb _; exact hb
  | cons c t ih =>
    intro b ha hb hbd
    cases t with
    | nil =>
      cases b with
      | nil => rfl
      | cons d u =>
        rw [List.singleton_append, noDS_cons_cons]
        exact ⟨pairNotSpace (hbd c d rfl rfl), hb⟩
    | cons c2 t2 =>
      have h2 : noDoubleSpace ((c2 :: t2) ++ b) = true := by
        apply ih b (noDoubleSpace_tail ha) hb
        intro x y hx hy
        refine hbd x y ?_ hy
        rw [List.getLast?_cons_cons]
        exact hx
      rw [List.cons_append]
      rw [show (c2 :: t2) ++ b = c2 :: (t2 ++ b) from List.cons_append c2 t2 b] at h2 ⊢
      rw [noDS_cons_cons]
      constructor
      · rw [noDS_cons_cons] at ha
        exact ha.1
      · exact h2

theorem head?_append_ne_nil : ∀ (p x : Str), p ≠ [] → (p ++ x).head? = p.head?
  | [], _, h => absurd rfl h
  | _ :: _, _, _ => rfl

theorem join_head (q : Str) (rest : List Str) (hq : q ≠ []) :
    (pyJoinSpace (q :: rest)).head? = q.head? := by
  cases rest with
  | nil => rfl
  | cons r rs => exact head?_append_ne_nil q _ hq

theorem join_ne_nil (q : Str) (rest : List Str) (hq : q ≠ []) :
    pyJoinSpace (q :: rest) ≠ [] := by
  intro h0
  have h := join_head q rest hq
  rw [h0] at h
  cases q with
  | nil => exact hq rfl
  | cons a t => simp at h

theorem getLast?_append_cons : ∀ (p : Str) (c : Char) (J : Str),
    (p ++ c :: J).getLast? = (c :: J).getLast? := by
  intro p
  induction p with
  | nil => intro c J; rfl
  | cons a t ih =>
    intro c J
    have h1 : (a :: (t ++ c :: J)).getLast? = (t ++ c :: J).getLast? := by
      cases ht : t ++ c :: J with
      | nil => simp at ht
      | cons x u => rw [List.getLast?_cons_cons]
    rw [List.cons_append, h1, ih c J]

theorem pyJoinSpace_props : ∀ (parts : List Str),
    (∀ p ∈ parts, p ≠ [] ∧ optNotWS p.head? = true ∧ optNotWS p.getLast? = true ∧
      noDoubleSpace p = true) →
    optNotWS (pyJoinSpace parts).head? = true ∧
    optNotWS (pyJoinSpace parts).getLast? = true ∧
    noDoubleSpace (pyJoinSpace parts) = true := by
  intro parts
  induction parts with
  | nil => intro _; exact ⟨rfl, rfl, rfl⟩
  | cons p rest ih =>
    intro h
    cases rest with
    | nil =>
      obtain ⟨_, h1, h2, h3⟩ := h p (by simp)
      exact ⟨h1, h2, h3⟩
    | cons q rs =>
      obtain ⟨hpne, hph, hpl, hpd⟩ := h p (by simp)
      obtain ⟨hqne, _, _, _⟩ := h q (by simp)
      obtain ⟨hJh, hJl, hJd⟩ := ih (fun x hx => h x (List.mem_cons_of_mem _ hx))
      have hJne : pyJoinSpace (q :: rs) ≠ [] := join_ne_nil q rs hqne
      have hjoin : pyJoinSpace (p :: q :: rs) = p ++ ' ' :: pyJoinSpace (q :: rs) := rfl
      refine ⟨?_, ?_, ?_⟩
      · rw [hjoin, head?_append_ne_nil _ _ hpne]
        exact hph
      · rw [hjoin, getLast?_append_cons]
        cases hJ : pyJoinSpace (q :: rs) with
        | nil => exact absurd hJ hJne
        | cons j js =>
          rw [List.getLast?_cons_cons, ← hJ]
          exact hJl
      · rw [hjoin]
        apply noDS_append
        · exact hpd
        · cases hJ : pyJoinSpace (q :: rs) with
          | nil => rfl
          | cons j js =>
            rw [noDS_cons_cons]
            constructor
            · apply pairNotSpace
              rintro ⟨_, hj⟩
              rw [hJ] at hJh
              exact optNotWS_ne_space hJh (List.head?_cons) hj  
            · rw [← hJ]
              exact hJd
        · intro x y hx hy
          rw [List.head?_cons] at hy
          have hy' : y = ' ' := (Option.some.inj hy).symm
          rintro ⟨hxsp, _⟩
          exact optNotWS_ne_space hpl hx hxsp

/-! ### Claims C8 and C10 -/

theorem normalize_phrase_props (text : Str) :
    ∀ p ∈ (((((pySplitlines text).map pyStrip).map
        (fun line => (splitTwoSpaces line).map pyStrip)).flatten).filter
          (fun p => !p.isEmpty)),
      p ≠ [] ∧ optNotWS p.head? = true ∧ optNotWS p.getLast? = true ∧
        noDoubleSpace p = true := by
  intro p hp
  rw [List.mem_filter] at hp
  obtain ⟨hp, hpne⟩ := hp
  rw [List.mem_flatten] at hp
  obtain ⟨l, hl, hpl⟩ := hp
  rw [List.mem_map] at hl
  obtain ⟨line, hline, rfl⟩ := hl
  rw [List.mem_map] at hpl
  obtain ⟨g, hg, rfl⟩ := hpl
  refine ⟨?_, dropWhileWS_head _, dropWhile_last_all _ _ (stripRight_last g),
    noDS_dropWhile _ _ (noDS_stripRight _ (splitTwoSpaces_noDS line g hg))⟩
  intro h0
  rw [h0] at hpne
  simp at hpne

theorem normalize_props (text : Str) :
    optNotWS (normalizeWhitespace text).head? = true ∧
    optNotWS (normalizeWhitespace text).getLast? = true ∧
    noDoubleSpace (normalizeWhitespace text) = true := by
  have h := pyJoinSpace_props _ (normalize_phrase_props text)
  exact h

theorem mem_dropWhile (p : Char → Bool) : ∀ (l : Str) (c : Char),
    c ∈ l.dropWhile p → c ∈ l := by
  intro l
  induction l with
  | nil => intro c h; exact h
  | cons d t ih =>
    intro c h
    rw [List.dropWhile_cons] at h
    by_cases hd : p d = true
    · rw [if_pos hd] at h; exact List.mem_cons_of_mem _ (ih c h)
    · rw [if_neg hd] at h; exact h

theorem mem_stripRight : ∀ (l : Str) (c : Char), c ∈ pyStripRight l → c ∈ l := by
  intro l
  induction l with
  | nil => intro c h; exact h
  | cons d t ih =>
    intro c h
    simp only [pyStripRight] at h
    by_cases hcond : (decide (pyStripRight t = []) && isPyWS d) = true
    · rw [if_pos hcond] at h; cases h
    · rw [if_neg hcond] at h
      rcases List.mem_cons.mp h with h | h
      · rw [h]; simp
      · exact List.mem_cons_of_mem _ (ih c h)

theorem mem_pyStrip (l : Str) (c : Char) (h : c ∈ pyStrip l) : c ∈ l :=
  mem_stripRight l c (mem_dropWhile isPyWS _ c h)

theorem mem_splitTwoSpaces : ∀ (s : Str) (f : Str), f ∈ splitTwoSpaces s →
    ∀ c ∈ f, c ∈ s := by
  intro s
  induction s using splitTwoSpaces.induct with
  | case1 =>
    intro f hf c hc
    simp only [splitTwoSpaces, List.mem_singleton] at hf
    subst hf; cases hc
  | case2 d =>
    intro f hf c hc
    simp only [splitTwoSpaces, List.mem_singleton] at hf
    subst hf; exact hc
  | case3 c1 c2 rest hsep ih =>
    intro f hf c hc
    simp only [splitTwoSpaces] at hf
    rw [if_pos hsep] at hf
    rcases List.mem_cons.mp hf with hf | hf
    · subst hf; cases hc
    · exact List.mem_cons_of_mem _ (List.mem_cons_of_mem _ (ih f hf c hc))
  | case4 c1 c2 rest hsep ih =>
    intro f hf c hc
    simp only [splitTwoSpaces] at hf
    rw [if_neg hsep] at hf
    rcases h2 : splitTwoSpaces (c2 :: rest) with _ | ⟨f0, fs0⟩
    · exact absurd h2 (splitTwoSpaces_ne_nil _)
    · rw [h2] at hf
      simp only [List.headD_cons, List.tail_cons] at hf
      rcases List.mem_cons.mp hf with hf | hf
      · subst hf
        rcases List.mem_cons.mp hc with hc | hc
        · rw [hc]; simp
        · exact List.mem_cons_of_mem _ (ih f0 (by rw [h2]; simp) c hc)
      · exact List.mem_cons_of_mem _
          (ih f (by rw [h2]; exact List.mem_cons_of_mem _ hf) c hc)

theorem splitlinesAux_nonbreak : ∀ (s acc : Str),
    acc.all (fun c => !pyLineBreak c) = true →
    ∀ l ∈ pySplitlinesAux s acc, l.all (fun c => !pyLineBreak c) = true := by
  intro s acc
  induction s, acc using pySplitlinesAux.induct with
  | case1 =>
    intro _ l hl
    simp only [pySplitlinesAux.eq_1, if_pos rfl] at hl
    cases hl
  | case2 acc hacc =>
    intro ha l hl
    rw [pySplitlinesAux.eq_1, if_neg hacc, List.mem_singleton] at hl
    subst hl
    rw [List.all_reverse]
    exact ha
  | case3 rest acc ih =>
    intro ha l hl
    rw [pySplitlinesAux.eq_2] at hl
    rcases List.mem_cons.mp hl with hl | hl
    · subst hl; rw [List.all_reverse]; exact ha
    · exact ih rfl l hl
  | case4 c rest acc hne hbrk ih =>
    intro ha l hl
    rw [pySplitlinesAux.eq_3 acc c rest hne, if_pos hbrk] at hl
    rcases List.mem_cons.mp hl with hl | hl
    · subst hl; rw [List.all_reverse]; exact ha
    · exact ih rfl l hl
  | case5 c rest acc hne hbrk ih =>
    intro ha l hl
    rw [pySplitlinesAux.eq_3 acc c rest hne, if_neg hbrk] at hl
    refine ih ?_ l hl
    rw [List.all_cons, Bool.and_eq_true]
    exact ⟨by rw [boolNotTrue hbrk]; rfl, ha⟩

theorem joinSpace_mem : ∀ (parts : List Str) (c : Char), c ∈ pyJoinSpace parts →
    (∃ p ∈ parts, c ∈ p) ∨ c = ' ' := by
  intro parts
  induction parts with
  | nil => intro c h; cases h
  | cons p rest ih =>
    intro c h
    cases rest with
    | nil => exact Or.inl ⟨p, by simp, h⟩
    | cons q rs =>
      rw [show pyJoinSpace (p :: q :: rs) = p ++ ' ' :: pyJoinSpace (q :: rs) from rfl] at h
      rcases List.mem_append.mp h with h | h
      · exact Or.inl ⟨p, by simp, h⟩
      · rcases List.mem_cons.mp h with h | h
        · exact Or.inr h
        · rcases ih c h with ⟨x, hx, hcx⟩ | h
          · exact Or.inl ⟨x, List.mem_cons_of_mem _ hx, hcx⟩
          · exact Or.inr h

theorem normalize_all_nonbreak (text : Str) :
    (normalizeWhitespace text).all (fun c => !pyLineBreak c) = true := by
  rw [List.all_eq_true]
  intro c hc
  rcases joinSpace_mem _ c hc with ⟨p, hp, hcp⟩ | hsp
  · rw [List.mem_filter] at hp
    obtain ⟨hp, _⟩ := hp
    rw [List.mem_flatten] at hp
    obtain ⟨l, hl, hpl⟩ := hp
    rw [List.mem_map] at hl
    obtain ⟨line, hline, rfl⟩ := hl
    rw [List.mem_map] at hpl
    obtain ⟨g, hg, rfl⟩ := hpl
    rw [List.mem_map] at hline
    obtain ⟨line0, hline0, rfl⟩ := hline
    have hc_line : c ∈ line0 :=
      mem_pyStrip line0 c
        (mem_splitTwoSpaces (pyStrip line0) g hg c (mem_pyStrip g c hcp))
    have hline0_nb := splitlinesAux_nonbreak text [] rfl line0 hline0
    rw [List.all_eq_true] at hline0_nb
    exact hline0_nb c hc_line
  · subst hsp; rfl

theorem bnotTrue {b : Bool} (h : (!b) = true) : b = false := by
  cases b
  · rfl
  · exact absurd h (by decide)

theorem splitlinesAux_all_nonbreak : ∀ (s acc : Str),
    s.all (fun c => !pyLineBreak c) = true →
    pySplitlinesAux s acc =
      if acc.reverse ++ s = [] then [] else [acc.reverse ++ s] := by
  intro s acc
  induction s, acc using pySplitlinesAux.induct with
  | case1 =>
    intro _
    rw [pySplitlinesAux.eq_1]
    simp
  | case2 acc hacc =>
    intro _
    rw [pySplitlinesAux.eq_1, if_neg hacc]
    have h1 : acc.reverse ++ ([] : Str) ≠ [] := by simp [hacc]
    rw [if_neg h1, List.append_nil]
  | case3 rest acc ih =>
    intro hall
    exfalso
    have hbr : pyLineBreak '\r' = true := rfl
    rw [List.all_cons, hbr] at hall
    simp at hall
  | case4 c rest acc hne hbrk ih =>
    intro hall
    exfalso
    rw [List.all_cons, hbrk, Bool.and_eq_true] at hall
    simp at hall
  | case5 c rest acc hne hbrk ih =>
    intro hall
    rw [List.all_cons, Bool.and_eq_true] at hall
    rw [pySplitlinesAux.eq_3 acc c rest hne, if_neg hbrk]
    rw [ih hall.2]
    have hr : (c :: acc).reverse ++ rest = acc.reverse ++ (c :: rest) := by
      simp
    rw [hr]

theorem splitlines_single (s : Str) (hne : s ≠ [])
    (hnb : s.all (fun c => !pyLineBreak c) = true) : pySplitlines s = [s] := by
  rw [pySplitlines, splitlinesAux_all_nonbreak s [] hnb]
  simp [hne]

theorem stripRight_eq_self : ∀ (l : Str), optNotWS l.getLast? = true →
    pyStripRight l = l := by
  intro l
  induction l with
  | nil => intro _; rfl
  | cons c rest ih =>
    intro h
    simp only [pyStripRight]
    cases rest with
    | nil =>
      have hc : isPyWS c = false := bnotTrue h
      rw [if_neg (by simp [hc])]
      rfl
    | cons d t =>
      have h2 : optNotWS ((d :: t) : Str).getLast? = true := by
        rw [← List.getLast?_cons_cons (a := c)]
        exact h
      rw [ih h2]
      rw [if_neg (by simp)]

theorem dropWhileWS_eq_self (l : Str) (h : optNotWS l.head? = true) :
    l.dropWhile isPyWS = l := by
  cases l with
  | nil => rfl
  | cons c rest =>
    have hc : isPyWS c = false := bnotTrue h
    rw [List.dropWhile_cons, if_neg (by simp [hc])]

theorem pyStrip_eq_self (l : Str) (hh : optNotWS l.head? = true)
    (hl : optNotWS l.getLast? = true) : pyStrip l = l := by
  rw [pyStrip, stripRight_eq_self l hl, dropWhileWS_eq_self l hh]

theorem splitTwoSpaces_single : ∀ (s : Str), noDoubleSpace s = true →
    splitTwoSpaces s = [s] := by
  intro s
  induction s using splitTwoSpaces.induct with
  | case1 => intro _; rfl
  | case2 c => intro _; rfl
  | case3 c1 c2 rest hsep ih =>
    intro hd
    exfalso
    rw [noDS_cons_cons, hsep] at hd
    simp at hd
  | case4 c1 c2 rest hsep ih =>
    intro hd
    simp only [splitTwoSpaces]
    rw [if_neg hsep, ih (noDoubleSpace_tail hd)]
    simp

theorem normalize_fixpoint_core (s : Str)
    (hnb : s.all (fun c => !pyLineBreak c) = true)
    (hh : optNotWS s.head? = true) (hl : optNotWS s.getLast? = true)
    (hd : noDoubleSpace s = true) : normalizeWhitespace s = s := by
  by_cases hne : s = []
  · subst hne; rfl
  · show pyJoinSpace (((((pySplitlines s).map pyStrip).map
      (fun line => (splitTwoSpaces line).map pyStrip)).flatten).filter
        (fun p => !p.isEmpty)) = s
    rw [splitlines_single s hne hnb]
    rw [List.map_cons, List.map_nil, pyStrip_eq_self s hh hl]
    rw [List.map_cons, List.map_nil, splitTwoSpaces_single s hd]
    rw [List.map_cons, List.map_nil, pyStrip_eq_self s hh hl]
    rw [List.flatten_cons, List.flatten_nil, List.append_nil]
    rw [List.filter_cons, if_pos (by simp [hne])]
    rw [List.filter_nil]
    rfl

/-! ### The claims C8 and C10 -/

/-- C8 is false as stated: the normalization of "a\t\tb" is "a\t\tb"
itself, which contains two consecutive whitespace characters (the tabs);
only runs of two or more spaces are collapsed, not general whitespace. -/
theorem C8_counterexample :
    normalizeWhitespace "a\t\tb".toList = "a\t\tb".toList ∧
      hasConsecutiveWS (normalizeWhitespace "a\t\tb".toList) = true := by
  constructor
  · rfl
  · decide

/-- C8 amended: for every input, the extractor's whitespace normalization
produces output with no leading whitespace, no trailing whitespace, and no
two consecutive space characters; consecutive non-space whitespace
characters (for instance tabs) inside a line survive. -/
theorem C8_normalized_output_shape (text : Str) :
    optNotWS (normalizeWhitespace text).head? = true ∧
    optNotWS (normalizeWhitespace text).getLast? = true ∧
    noDoubleSpace (normalizeWhitespace text) = true := normalize_props text

/-- C10: the extractor's whitespace normalization is idempotent —
applying it to its own output returns the output unchanged, for every
input string. -/
theorem C10_normalization_idempotent (text : Str) :
    normalizeWhitespace (normalizeWhitespace text) = normalizeWhitespace text := by
  obtain ⟨hh, hl, hd⟩ := normalize_props text
  exact normalize_fixpoint_core _ (normalize_all_nonbreak text) hh hl hd

/-! ### URL parsing, content classification and filename derivation

Models `urlparse` for the URLs the program handles: the part after the
first "://" is split into netloc (up to the first '/') and path; query
('?'), and fragment ('#') are not part of the path.  URL `params` (';')
and userinfo are outside the model. -/

/-- Lowercase an ASCII letter (Python `str.lower()` on the ASCII range). -/
def toLowerChar (c : Char) : Char :=
  if 'A' ≤ c ∧ c ≤ 'Z' then Char.ofNat (c.toNat + 32) else c

def toLowerStr (s : Str) : Str := s.map toLowerChar

/-- The remainder of the URL after the first "://", if any. -/
def afterScheme : Str → Option Str
  | ':' :: '/' :: '/' :: r => some r
  | _ :: rest => afterScheme rest
  | [] => none

/-- Split a scheme-less remainder at the first '/': (netloc, path). -/
def splitHostPath : Str → Str × Str
  | [] => ([], [])
  | c :: rest =>
    if c = '/' then ([], c :: rest)
    else
      let p := splitHostPath rest
      (c :: p.1, p.2)

/-- `urlparse(url).netloc`. -/
def urlNetloc (url : Str) : Str :=
  match afterScheme url with
  | some rest => (splitHostPath rest).1
  | none => []

/-- `urlparse(url).path` (query and fragment removed). -/
def urlPath (url : Str) : Str :=
  (match afterScheme url with
   | some rest => (splitHostPath rest).2
   | none => url).takeWhile (fun c => !(c = '?' || c = '#'))

/-- Substring containment (`pat in s` / `re.search` of a literal). -/
def containsSub (pat : Str) : Str → Bool
  | [] => pat.isEmpty
  | c :: rest => pat.isPrefixOf (c :: rest) || containsSub pat rest

def ctSub (pat : String) (ct : Str) : Bool := containsSub pat.toList ct

/-- Python `s.split(sep)` for a single-character separator, keeping empty
fragments (`headD`/`tail` prepend onto the always non-empty split of the
remainder, see `splitOnChar_ne_nil`). -/
def splitOnChar (sep : Char) : Str → List Str
  | [] => [[]]
  | c :: rest =>
    if c = sep then [] :: splitOnChar sep rest
    else
      let f := splitOnChar sep rest
      (c :: f.headD []) :: f.tail

def isAsciiAlnum (c : Char) : Bool :=
  ('a' ≤ c && c ≤ 'z') || ('A' ≤ c && c ≤ 'Z') || ('0' ≤ c && c ≤ '9')

/-- `re.match(r'^[a-zA-Z0-9]{1,5}$', s)`: one to five alphanumerics. -/
def extRegexOk (s : Str) : Bool :=
  decide (1 ≤ s.length) && decide (s.length ≤ 5) && s.all isAsciiAlnum

/-- The content-type table on whether the response is handled as HTML
(web_client.py line 210). -/
def isHtmlContentType (ct : Str) : Bool :=
  ctSub "text/html" ct || ctSub "application/xhtml" ct

/-- Extension resolution for non-HTML downloads in `get_webpage_file`
(web_client.py lines 244-301): the MIME substring chain in source order,
then, when it yields the default "bin", the URL-path-suffix fallback
validated as 1-5 alphanumerics and lowercased. -/
def fileExtension (content_type url : Str) : Str :=
  let extension : Str :=
    if ctSub "application/pdf" content_type then "pdf".toList
    else if ctSub "image/jpeg" content_type || ctSub "image/jpg" content_type then "jpg".toList
    else if ctSub "image/png" content_type then "png".toList
    else if ctSub "image/gif" content_type then "gif".toList
    else if ctSub "image/webp" content_type then "webp".toList
    else if ctSub "image/svg" content_type then "svg".toList
    else if ctSub "application/msword" content_type then "doc".toList
    else if ctSub "application/vnd.openxmlformats-officedocument.wordprocessingml.document" content_type then "docx".toList
    else if ctSub "application/vnd.ms-excel" content_type then "xls".toList
    else if ctSub "application/vnd.openxmlformats-officedocument.spreadsheetml.sheet" content_type then "xlsx".toList
    else if ctSub "application/vnd.ms-powerpoint" content_type then "ppt".toList
    else if ctSub "application/vnd.openxmlformats-officedocument.presentationml.presentation" content_type then "pptx".toList
    else if ctSub "text/plain" content_type then "txt".toList
    else if ctSub "text/csv" content_type then "csv".toList
    else if ctSub "application/json" content_type then "json".toList
    else if ctSub "application/xml" content_type || ctSub "text/xml" content_type then "xml".toList
    else if ctSub "application/zip" content_type then "zip".toList
    else if ctSub "application/x-rar" content_type then "rar".toList
    else if ctSub "application/x-7z-compressed" content_type then "7z".toList
    else if ctSub "video/mp4" content_type then "mp4".toList
    else if ctSub "video/avi" content_type then "avi".toList
    else if ctSub "audio/mpeg" content_type then "mp3".toList
    else if ctSub "audio/wav" content_type then "wav".toList
    else "bin".toList
  if extension = "bin".toList then
    let url_path := urlPath url
    if url_path.contains '.' then
      let url_extension := toLowerStr ((splitOnChar '.' url_path).getLastD [])
      if extRegexOk url_extension then url_extension else "bin".toList
    else "bin".toList
  else extension

/-! ### Lemmas for the URL-suffix fallback -/

theorem afterScheme_cons_ne (c : Char) (r : Str) (hc : ¬ c = ':') :
    afterScheme (c :: r) = afterScheme r :=
  afterScheme.eq_2 c r (fun _ h _ => hc h)

theorem afterScheme_https (X : Str) :
    afterScheme ("https://".toList ++ X) = some X := by
  rw [show ("https://".toList ++ X) =
    'h' :: 't' :: 't' :: 'p' :: 's' :: ':' :: '/' :: '/' :: X from rfl]
  rw [afterScheme_cons_ne 'h' _ (by decide), afterScheme_cons_ne 't' _ (by decide),
      afterScheme_cons_ne 't' _ (by decide), afterScheme_cons_ne 'p' _ (by decide),
      afterScheme_cons_ne 's' _ (by decide)]
  exact afterScheme.eq_1 X

theorem splitHostPath_cons_ne (c : Char) (r : Str) (hc : ¬ c = '/') :
    splitHostPath (c :: r) = (c :: (splitHostPath r).1, (splitHostPath r).2) := by
  rw [splitHostPath, if_neg hc]

theorem splitHostPath_slash (r : Str) :
    splitHostPath ('/' :: r) = ([], '/' :: r) := by
  rw [splitHostPath, if_pos rfl]

theorem takeWhile_append_all (p : Char → Bool) : ∀ (l r : Str), l.all p = true →
    (l ++ r).takeWhile p = l ++ r.takeWhile p := by
  intro l
  induction l with
  | nil => intro r _; rfl
  | cons c t ih =>
    intro r hall
    rw [List.all_cons, Bool.and_eq_true] at hall
    rw [List.cons_append, List.takeWhile_cons, if_pos hall.1, ih r hall.2,
      List.cons_append]

theorem takeWhile_all_eq_self (p : Char → Bool) : ∀ (l : Str), l.all p = true →
    l.takeWhile p = l := by
  intro l
  induction l with
  | nil => intro _; rfl
  | cons c t ih =>
    intro hall
    rw [List.all_cons, Bool.and_eq_true] at hall
    rw [List.takeWhile_cons, if_pos hall.1, ih hall.2]

theorem splitOnChar_ne_nil (sep : Char) : ∀ (s : Str), splitOnChar sep s ≠ [] := by
  intro s
  induction s using splitOnChar.induct sep with
  | case1 => simp [splitOnChar]
  | case2 rest ih =>
    simp [splitOnChar]
  | case3 c rest hne ih =>
    simp only [splitOnChar]
    rw [if_neg hne]
    simp

theorem splitOnChar_no_sep (sep : Char) : ∀ (s : Str),
    s.all (fun c => !(c = sep)) = true → splitOnChar sep s = [s] := by
  intro s
  induction s using splitOnChar.induct sep with
  | case1 => intro _; rfl
  | case2 rest ih =>
    intro hall
    exfalso
    rw [List.all_cons, Bool.and_eq_true] at hall
    have h1 := hall.1
    simp at h1
  | case3 c rest hne ih =>
    intro hall
    rw [List.all_cons, Bool.and_eq_true] at hall
    simp only [splitOnChar]
    rw [if_neg hne, ih hall.2]
    simp

theorem splitOnChar_len2 (sep : Char) : ∀ (s : Str), sep ∈ s →
    2 ≤ (splitOnChar sep s).length := by
  intro s
  induction s using splitOnChar.induct sep with
  | case1 => intro h; cases h
  | case2 rest ih =>
    intro _
    have hne := splitOnChar_ne_nil sep rest
    have hpos : 0 < (splitOnChar sep rest).length := List.length_pos.mpr hne
    simp only [splitOnChar, if_true]
    rw [List.length_cons]
    omega
  | case3 c rest hne ih =>
    intro hmem
    have hrest : sep ∈ rest := by
      rcases List.mem_cons.mp hmem with h0 | h0
      · exact absurd h0.symm hne
      · exact h0
    have h2 := ih hrest
    simp only [splitOnChar]
    rw [if_neg hne]
    rw [List.length_cons, List.length_tail]
    omega

theorem getLastD_cons_irrel (x : Str) (xs : List Str) (d d' : Str) :
    (x :: xs).getLastD d = (x :: xs).getLastD d' := by
  rw [List.getLastD_cons, List.getLastD_cons]

theorem getLastD_seg_sep (sep : Char) (rest : Str) :
    (splitOnChar sep (sep :: rest)).getLastD [] =
      (splitOnChar sep rest).getLastD [] := by
  simp only [splitOnChar, if_true]
  rw [List.getLastD_cons]

theorem getLastD_seg_cons (sep c : Char) (rest : Str) (hne : ¬ c = sep)
    (hmem : sep ∈ rest) :
    (splitOnChar sep (c :: rest)).getLastD [] =
      (splitOnChar sep rest).getLastD [] := by
  have h2 := splitOnChar_len2 sep rest hmem
  simp only [splitOnChar]
  rw [if_neg hne]
  cases hf : splitOnChar sep rest with
  | nil => exact absurd hf (splitOnChar_ne_nil sep rest)
  | cons f fs =>
    rw [hf] at h2
    cases fs with
    | nil => simp at h2
    | cons f2 fs2 =>
      rw [List.headD_cons, List.tail_cons]
      have hL : ((c :: f) :: f2 :: fs2).getLastD [] = (f2 :: fs2).getLastD (c :: f) :=
        List.getLastD_cons _ _ _
      have hR : (f :: f2 :: fs2).getLastD [] = (f2 :: fs2).getLastD f :=
        List.getLastD_cons _ _ _
      rw [hL, hR]
      exact getLastD_cons_irrel f2 fs2 (c :: f) f

theorem lastSeg_file (sfx : Str) (hnd : sfx.all (fun c => !(c = '.')) = true) :
    (splitOnChar '.' ("/file.".toList ++ sfx)).getLastD [] = sfx := by
  rw [show ("/file.".toList ++ sfx) =
    '/' :: 'f' :: 'i' :: 'l' :: 'e' :: '.' :: sfx from rfl]
  rw [getLastD_seg_cons '.' '/' _ (by decide)
      (List.mem_cons_of_mem 'f' (List.mem_cons_of_mem 'i' (List.mem_cons_of_mem 'l'
        (List.mem_cons_of_mem 'e' (List.mem_cons_self '.' sfx)))))]
  rw [getLastD_seg_cons '.' 'f' _ (by decide)
      (List.mem_cons_of_mem 'i' (List.mem_cons_of_mem 'l'
        (List.mem_cons_of_mem 'e' (List.mem_cons_self '.' sfx))))]
  rw [getLastD_seg_cons '.' 'i' _ (by decide)
      (List.mem_cons_of_mem 'l' (List.mem_cons_of_mem 'e' (List.mem_cons_self '.' sfx)))]
  rw [getLastD_seg_cons '.' 'l' _ (by decide)
      (List.mem_cons_of_mem 'e' (List.mem_cons_self '.' sfx))]
  rw [getLastD_seg_cons '.' 'e' _ (by decide) (List.mem_cons_self '.' sfx)]
  rw [getLastD_seg_sep '.' sfx]
  rw [splitOnChar_no_sep '.' sfx hnd]
  rfl

theorem splitHostPath_xcom (sfx : Str) :
    splitHostPath ("x.com/file.".toList ++ sfx) =
      ("x.com".toList, "/file.".toList ++ sfx) := by
  rw [show ("x.com/file.".toList ++ sfx) =
    'x' :: '.' :: 'c' :: 'o' :: 'm' :: ("/file.".toList ++ sfx) from rfl]
  rw [splitHostPath_cons_ne 'x' _ (by decide), splitHostPath_cons_ne '.' _ (by decide),
      splitHostPath_cons_ne 'c' _ (by decide), splitHostPath_cons_ne 'o' _ (by decide),
      splitHostPath_cons_ne 'm' _ (by decide)]
  rw [show ("/file.".toList ++ sfx) = '/' :: ("file.".toList ++ sfx) from rfl]
  rw [splitHostPath_slash]
  rfl

theorem urlPath_file (sfx : Str)
    (hq : sfx.all (fun c => !(c = '?' || c = '#')) = true) :
    urlPath ("https://x.com/file.".toList ++ sfx) = "/file.".toList ++ sfx := by
  have h1 : afterScheme ("https://x.com/file.".toList ++ sfx) =
      some ("x.com/file.".toList ++ sfx) :=
    afterScheme_https ("x.com/file.".toList ++ sfx)
  rw [urlPath, h1]
  show ((splitHostPath ("x.com/file.".toList ++ sfx)).2).takeWhile
      (fun c => !(c = '?' || c = '#')) = "/file.".toList ++ sfx
  rw [splitHostPath_xcom sfx]
  show ("/file.".toList ++ sfx).takeWhile (fun c => !(c = '?' || c = '#')) =
    "/file.".toList ++ sfx
  rw [takeWhile_append_all _ _ _ (by decide)]
  rw [takeWhile_all_eq_self _ _ hq]

theorem fileExtension_bin_ct (url : Str) :
    fileExtension [] url =
      (if (urlPath url).contains '.' then
        (if extRegexOk (toLowerStr ((splitOnChar '.' (urlPath url)).getLastD []))
         then toLowerStr ((splitOnChar '.' (urlPath url)).getLastD [])
         else "bin".toList)
      else "bin".toList) := rfl

/-! ### Claim C6 -/

/-- C6: for a non-HTML response the extension resolution is deterministic:
any content type containing "application/pdf" yields "pdf" regardless of the
URL; an empty content type with URL path ending ".CSV" yields "csv" (the
suffix lowercased); an empty content type with no usable URL suffix yields
the default "bin"; and in general, for an empty content type and a URL
whose path has a dot-separated suffix, the fallback accepts the lowercased
suffix exactly when it is 1-5 alphanumeric characters, else "bin". -/
theorem C6_extension_classifier :
    (∀ ct url : Str, isHtmlContentType ct = false →
      containsSub "application/pdf".toList ct = true →
      fileExtension ct url = "pdf".toList) ∧
    fileExtension [] "https://x.com/report.CSV".toList = "csv".toList ∧
    fileExtension [] "https://x.com/noext".toList = "bin".toList ∧
    (∀ sfx : Str, sfx.all (fun c => !(c = '.')) = true →
      sfx.all (fun c => !(c = '?' || c = '#')) = true →
      fileExtension [] ("https://x.com/file.".toList ++ sfx) =
        (if extRegexOk (toLowerStr sfx) then toLowerStr sfx else "bin".toList)) := by
  refine ⟨?_, rfl, rfl, ?_⟩
  · intro ct url _ hp
    simp only [fileExtension]
    rw [if_pos (show ctSub "application/pdf" ct = true from hp)]
    rw [if_neg (show ¬ ("pdf".toList = "bin".toList) from by decide)]
  · intro sfx hnd hq
    rw [fileExtension_bin_ct, urlPath_file sfx hq]
    rw [if_pos (show ("/file.".toList ++ sfx).contains '.' = true from rfl)]
    rw [lastSeg_file sfx hnd]

/-- C6 witness: the theorem instantiated at the spec's concrete examples. -/
theorem C6_extension_classifier_witness :
    (isHtmlContentType "application/pdf; charset=binary".toList = false ∧
      containsSub "application/pdf".toList "application/pdf; charset=binary".toList = true ∧
      ("CSV".toList.all (fun c => !(c = '.')) = true ∧
        "CSV".toList.all (fun c => !(c = '?' || c = '#')) = true)) ∧
    fileExtension "application/pdf; charset=binary".toList
      "https://anything.example/whatever".toList = "pdf".toList ∧
    fileExtension [] ("https://x.com/file.".toList ++ "CSV".toList) =
      (if extRegexOk (toLowerStr "CSV".toList) then toLowerStr "CSV".toList
       else "bin".toList) :=
  ⟨⟨by decide, by decide, by decide, by decide⟩,
    C6_extension_classifier.1 "application/pdf; charset=binary".toList
      "https://anything.example/whatever".toList (by decide) (by decide),
    C6_extension_classifier.2.2.2 "CSV".toList (by decide) (by decide)⟩

/-! ### Filename derivation (`_get_filename_from_url`) -/

/-- Python `s.replace(a, b)` for single characters. -/
def replCharF (a b : Char) : Char → Char := fun c => if c = a then b else c

def replChar (a b : Char) (s : Str) : Str := s.map (replCharF a b)

/-- The character class of `re.sub(r'[<>:"|?*]', '_', filename)`. -/
def isInvalidFileChar (c : Char) : Bool :=
  c = '<' || c = '>' || c = ':' || c = '"' || c = '|' || c = '?' || c = '*'

def subInvalidChar : Char → Char := fun c => if isInvalidFileChar c then '_' else c

def subInvalid (s : Str) : Str := s.map subInvalidChar

/-- The character set of Python `filename.strip('. ')`. -/
def isDotSpace (c : Char) : Bool := c = '.' || c = ' '

def stripDotSpaceRight : Str → Str
  | [] => []
  | c :: rest =>
    let r := stripDotSpaceRight rest
    if r = [] && isDotSpace c then [] else c :: r

/-- Python `filename.strip('. ')`. -/
def pyStripDotSpace (s : Str) : Str := (stripDotSpaceRight s).dropWhile isDotSpace

/-- Python `s[-16:]` (and `s[-n:]` generally). -/
def lastN (n : Nat) (s : Str) : Str := s.drop (s.length - n)

/-- `_get_filename_from_url(url, extension)` from web_client.py (23-45). -/
def get_filename_from_url (url ext : Str) : Str :=
  let filename := urlNetloc url ++ urlPath url
  let filename := replChar '/' '_' filename
  let filename := replChar '\\' '_' filename
  let filename := replChar '.' '_' filename
  let filename := replChar '+' '_' filename
  let filename := subInvalid filename
  let filename := pyStripDotSpace filename
  let filename := if filename = [] then "webpage".toList else filename
  lastN 16 filename ++ '.' :: ext

/-- Modelled from the spec wording of C9: identical derivation except that
the disallowed filesystem characters are STRIPPED (removed) instead of
replaced with an underscore. -/
def specFilenameStrip (url ext : Str) : Str :=
  let filename := urlNetloc url ++ urlPath url
  let filename := replChar '/' '_' filename
  let filename := replChar '\\' '_' filename
  let filename := replChar '.' '_' filename
  let filename := replChar '+' '_' filename
  let filename := filename.filter (fun c => !isInvalidFileChar c)
  let filename := pyStripDotSpace filename
  let filename := if filename = [] then "webpage".toList else filename
  lastN 16 filename ++ '.' :: ext

/-- The amended spec derivation: a single character-classification pass —
separators (slash, backslash, dot, plus) and disallowed filesystem
characters all become underscore — then trim, default and truncate. -/
def sanitizeChar (c : Char) : Char :=
  if c = '/' || c = '\\' || c = '.' || c = '+' then '_'
  else if isInvalidFileChar c then '_'
  else c

def specFilenameAmended (url ext : Str) : Str :=
  let sanitized := (urlNetloc url ++ urlPath url).map sanitizeChar
  let sanitized := pyStripDotSpace sanitized
  let sanitized := if sanitized = [] then "webpage".toList else sanitized
  lastN 16 sanitized ++ '.' :: ext

/-- Python `url.replace('.html', '')`: remove every (left-to-right,
non-overlapping) occurrence of ".html". -/
def removeDotHtml : Str → Str
  | '.' :: 'h' :: 't' :: 'm' :: 'l' :: rest => removeDotHtml rest
  | c :: rest => c :: removeDotHtml rest
  | [] => []

/-- The HTML-path filename derivation of `get_webpage_file`
(web_client.py lines 228-232): a URL ending in ".html" first has
".html" removed (by `str.replace`), then the filename is generated with
extension "html". -/
def htmlDerivedFilename (url : Str) : Str :=
  let url2 := if lastN 5 url = ".html".toList then removeDotHtml url else url
  get_filename_from_url url2 "html".toList

theorem sanitizeChar_steps (c : Char) :
    subInvalidChar (replCharF '+' '_' (replCharF '.' '_'
      (replCharF '\\' '_' (replCharF '/' '_' c)))) = sanitizeChar c := by
  by_cases h1 : c = '/'
  · subst h1; rfl
  by_cases h2 : c = '\\'
  · subst h2; rfl
  by_cases h3 : c = '.'
  · subst h3; rfl
  by_cases h4 : c = '+'
  · subst h4; rfl
  simp only [replCharF, if_neg h1, if_neg h2, if_neg h3, if_neg h4]
  rw [sanitizeChar, if_neg (by simp [h1, h2, h3, h4])]
  rfl

theorem filename_sanitize_eq : ∀ (l : Str),
    subInvalid (replChar '+' '_' (replChar '.' '_'
      (replChar '\\' '_' (replChar '/' '_' l)))) = l.map sanitizeChar := by
  intro l
  induction l with
  | nil => rfl
  | cons c t ih =>
    show subInvalidChar (replCharF '+' '_' (replCharF '.' '_'
        (replCharF '\\' '_' (replCharF '/' '_' c)))) ::
      subInvalid (replChar '+' '_' (replChar '.' '_'
        (replChar '\\' '_' (replChar '/' '_' t)))) =
      sanitizeChar c :: t.map sanitizeChar
    rw [sanitizeChar_steps c, ih]

/-! ### Claim C9 -/

/-- C9 is false as stated: the code REPLACES disallowed filesystem characters
with an underscore (re.sub with replacement '_'), it does not strip them.
For the URL "https://x.com/a<b" the code derives "x_com_a_b.txt" while the
claimed derivation (stripping '<') gives "x_com_ab.txt". -/
theorem C9_counterexample :
    get_filename_from_url "https://x.com/a<b".toList "txt".toList =
      "x_com_a_b.txt".toList ∧
    specFilenameStrip "https://x.com/a<b".toList "txt".toList =
      "x_com_ab.txt".toList ∧
    get_filename_from_url "https://x.com/a<b".toList "txt".toList ≠
      specFilenameStrip "https://x.com/a<b".toList "txt".toList :=
  ⟨by decide, by decide, by decide⟩

/-- C9 amended: for every URL and extension the derived filename equals the
sanitized host+path (slashes, backslashes, dots, plus signs AND the
disallowed filesystem characters all replaced by underscore, trimmed of
leading/trailing dots and spaces, defaulting to "webpage" when empty)
truncated to its last 16 characters, plus a dot and the extension; and for
https://Example.com/a/b/c.html with extension "html" (the ".html" being
removed from the URL first on the HTML path) the stem is the last 16
characters of "example_com_a_b_c". -/
theorem C9_filename_derivation :
    (∀ url ext : Str, get_filename_from_url url ext = specFilenameAmended url ext) ∧
    get_filename_from_url "https://Example.com/a/b/c".toList "html".toList =
      lastN 16 "example_com_a_b_c".toList ++ '.' :: "html".toList ∧
    htmlDerivedFilename "https://Example.com/a/b/c.html".toList =
      lastN 16 "example_com_a_b_c".toList ++ '.' :: "html".toList := by
  refine ⟨?_, by decide, by decide⟩
  intro url ext
  show lastN 16 (if pyStripDotSpace (subInvalid (replChar '+' '_' (replChar '.' '_'
      (replChar '\\' '_' (replChar '/' '_' (urlNetloc url ++ urlPath url)))))) = []
    then "webpage".toList
    else pyStripDotSpace (subInvalid (replChar '+' '_' (replChar '.' '_'
      (replChar '\\' '_' (replChar '/' '_' (urlNetloc url ++ urlPath url)))))))
    ++ '.' :: ext =
    lastN 16 (if pyStripDotSpace ((urlNetloc url ++ urlPath url).map sanitizeChar) = []
    then "webpage".toList
    else pyStripDotSpace ((urlNetloc url ++ urlPath url).map sanitizeChar)) ++ '.' :: ext
  rw [filename_sanitize_eq]

/-! ### The document tree model

BeautifulSoup trees are embedded as sibling-chained nodes: every node
carries its next sibling (`next`), and an element carries its first
child (`child`); `stop` ends a sibling chain.  A document is a chain of
top-level nodes.  This mirrors the linked structure of the parse tree
while keeping every operation structurally recursive.  BeautifulSoup
compares tags structurally (name, attributes, contents), which `eqOwn`
models by comparing nodes with their sibling pointer detached. -/

inductive HNode : Type where
  | elem (tag : Str) (attrs : List (Str × Str)) (child : HNode) (next : HNode)
  | textNode (s : Str) (next : HNode)
  | comment (s : Str) (next : HNode)
  | stop
deriving DecidableEq

/-- Replace a node's next-sibling pointer. -/
def setNext (n nxt : HNode) : HNode :=
  match n with
  | .elem t a c _ => .elem t a c nxt
  | .textNode s _ => .textNode s nxt
  | .comment s _ => .comment s nxt
  | .stop => .stop

/-- A node considered on its own, out of its sibling chain. -/
def detach (n : HNode) : HNode := setNext n .stop

/-- BeautifulSoup tag equality (`==`/`!=`/`in` on Tags): structural
comparison of name, attributes and contents, ignoring tree position. -/
def eqOwn (n m : HNode) : Bool := decide (detach n = detach m)

def childOf : HNode → HNode
  | .elem _ _ c _ => c
  | _ => .stop

def setChild (n c : HNode) : HNode :=
  match n with
  | .elem t a _ nx => .elem t a c nx
  | other => other

def getAttr (n : HNode) (name : String) : Option Str :=
  match n with
  | .elem _ attrs _ _ => attrs.lookup name.toList
  | _ => none

def tagIs (t : String) (n : HNode) : Bool :=
  match n with
  | .elem tg _ _ _ => tg = t.toList
  | _ => false

def tagInList (n : HNode) (ts : List String) : Bool :=
  match n with
  | .elem tg _ _ _ => ts.any (fun t => tg = t.toList)
  | _ => false

def roleIs (n : HNode) (r : String) : Bool :=
  match getAttr n "role" with
  | some v => v = r.toList
  | none => false

def roleInList (n : HNode) (rs : List String) : Bool := rs.any (fun r => roleIs n r)

/-- bs4 multi-valued `class` attribute: the raw value split on whitespace. -/
def classTokens (n : HNode) : List Str := pySplit ((getAttr n "class").getD [])

def classTokenIs (n : HNode) (cls : String) : Bool :=
  (classTokens n).any (fun tk => tk = cls.toList)

def classTokenInList (n : HNode) (cs : List String) : Bool :=
  cs.any (fun c => classTokenIs n c)

/-- CSS `[class*="sub"]`: substring of the raw attribute value. -/
def classAttrContains (n : HNode) (sub : String) : Bool :=
  match getAttr n "class" with
  | some cl => containsSub sub.toList cl
  | none => false

def idIs (n : HNode) (i : String) : Bool :=
  match getAttr n "id" with
  | some v => v = i.toList
  | none => false

def idInList (n : HNode) (ids : List String) : Bool := ids.any (fun i => idIs n i)

/-- Remove every element (with its subtree) satisfying `p`; the generic
"select matching tags, decompose each" pass.  The predicate is evaluated
on a node before its children are processed, matching the snapshot
behaviour of the source loops. -/
def prune (p : HNode → Bool) : HNode → HNode
  | .elem t a c nx =>
      if p (.elem t a c nx) then prune p nx
      else .elem t a (prune p c) (prune p nx)
  | .textNode s nx => .textNode s (prune p nx)
  | .comment s nx => .comment s (prune p nx)
  | .stop => .stop

/-- Remove comment nodes (`Comment ... extract()`). -/
def pruneComments : HNode → HNode
  | .elem t a c nx => .elem t a (pruneComments c) (pruneComments nx)
  | .textNode s nx => .textNode s (pruneComments nx)
  | .comment _ nx => pruneComments nx
  | .stop => .stop

/-- Does any node in the chain (or its descendants) satisfy `p`? -/
def anyNode (p : HNode → Bool) : HNode → Bool
  | .elem t a c nx => p (.elem t a c nx) || anyNode p c || anyNode p nx
  | .textNode s nx => p (.textNode s nx) || anyNode p nx
  | .comment s nx => p (.comment s nx) || anyNode p nx
  | .stop => false

/-- First node in document order (pre-order) satisfying `p`, detached;
models `find`/`select_one`. -/
def findFirst (p : HNode → Bool) : HNode → Option HNode
  | .elem t a c nx =>
      if p (.elem t a c nx) then some (detach (.elem t a c nx))
      else
        match findFirst p c with
        | some r => some r
        | none => findFirst p nx
  | .textNode _ nx => findFirst p nx
  | .comment _ nx => findFirst p nx
  | .stop => none

/-- `get_text(strip=True)` over a sibling chain: concatenation of the
stripped text fragments in document order (comments excluded). -/
def getTextStrip : HNode → Str
  | .elem _ _ c nx => getTextStrip c ++ getTextStrip nx
  | .textNode s nx => pyStrip s ++ getTextStrip nx
  | .comment _ nx => getTextStrip nx
  | .stop => []

/-- `get_text(strip=True)` of one node (its own subtree only). -/
def getTextOwn (n : HNode) : Str :=
  match n with
  | .elem _ _ c _ => getTextStrip c
  | .textNode s _ => pyStrip s
  | _ => []

/-- `title_element in current.find_all()`: the title occurs among the
strict descendants of the node. -/
def containsTitle (title n : HNode) : Bool :=
  anyNode (fun m => eqOwn m title) (childOf n)

/-- Substring occurrence check used by the pattern passes
(`re.search` of a `.*word.*` pattern): the word occurs somewhere. -/
def afterFirstSub (pat : Str) : Str → Option Str
  | [] => if pat.isEmpty then some [] else none
  | c :: rest =>
    if pat.isPrefixOf (c :: rest) then some ((c :: rest).drop pat.length)
    else afterFirstSub pat rest

/-- `re.search(".*a.*b.*", s)`: an occurrence of `a` followed by an
occurrence of `b`. -/
def subSeq (a b : Str) (s : Str) : Bool :=
  match afterFirstSub a s with
  | some r => containsSub b r
  | none => false

/-! ### `_remove_non_main_content` (web_client.py 388-453) -/

/-- The `non_content_patterns` list (web_client.py 422-427), applied
case-insensitively: each `.*word.*` is an occurrence test on the
lowercased attribute string; `.*author.*info.*` is a two-part sequence. -/
def nonContentPatternMatch (s : Str) : Bool :=
  let l := toLowerStr s
  containsSub "breadcrumb".toList l || containsSub "pagination".toList l ||
  containsSub "pager".toList l || containsSub "tags".toList l ||
  subSeq "author".toList "info".toList l || containsSub "byline".toList l ||
  containsSub "meta".toList l || containsSub "date".toList l ||
  containsSub "share".toList l || containsSub "social".toList l ||
  containsSub "related".toList l || containsSub "recommend".toList l ||
  containsSub "comment".toList l || containsSub "reply".toList l ||
  containsSub "discussion".toList l

/-- The `structural_selectors` pass (web_client.py 396-408): tag
selectors, then role selectors, then class selectors, then id selectors,
in the order of the source list. -/
def removeStructuralNMC (d : HNode) : HNode :=
  let d := prune (fun n => tagInList n ["nav", "header", "footer", "aside", "sidebar"]) d
  let d := prune (fun n =>
    roleInList n ["navigation", "banner", "contentinfo", "complementary"]) d
  let d := prune (fun n =>
    classTokenInList n ["sidebar", "nav", "navigation", "header", "footer", "aside"]) d
  prune (fun n => idInList n ["sidebar", "nav", "navigation", "header", "footer", "aside"]) d

/-- The first hit of an ordered sequence of searches (the source's
`a or b or ...` / sequential `if` returns). -/
def firstSome : List (Option HNode) → Option HNode
  | [] => none
  | some x :: _ => some x
  | none :: rest => firstSome rest

/-- `_find_main_content_area` (web_client.py 455-493): `main`, `article`,
`role="main"`, the id selectors, the class selectors, then `body`; `none`
means the document itself is used (the final `or soup`). -/
def findMainContentArea (d : HNode) : Option HNode :=
  firstSome
    [findFirst (tagIs "main") d, findFirst (tagIs "article") d,
     findFirst (fun n => roleIs n "main") d,
     findFirst (fun n => idIs n "main") d, findFirst (fun n => idIs n "content") d,
     findFirst (fun n => idIs n "main-content") d, findFirst (fun n => idIs n "primary") d,
     findFirst (fun n => idIs n "article") d,
     findFirst (fun n => classTokenIs n "main") d,
     findFirst (fun n => classTokenIs n "content") d,
     findFirst (fun n => classTokenIs n "main-content") d,
     findFirst (fun n => classTokenIs n "primary") d,
     findFirst (fun n => classTokenIs n "article") d,
     findFirst (fun n => classTokenIs n "post") d,
     findFirst (fun n => classTokenIs n "entry") d,
     findFirst (fun n => classTokenIs n "story") d,
     findFirst (tagIs "body") d]

/-- `_find_article_title` (web_client.py 495-527) over the content
area's descendants: `h1`, `h2`, `h3`, `h4`, the title-class selectors,
then the `[class*="title"]` / `[class*="headline"]` attribute selectors. -/
def findArticleTitle (content : HNode) : Option HNode :=
  firstSome
    [findFirst (tagIs "h1") content, findFirst (tagIs "h2") content,
     findFirst (tagIs "h3") content, findFirst (tagIs "h4") content,
     findFirst (fun n => classTokenIs n "title") content,
     findFirst (fun n => classTokenIs n "headline") content,
     findFirst (fun n => classTokenIs n "post-title") content,
     findFirst (fun n => classTokenIs n "entry-title") content,
     findFirst (fun n => classTokenIs n "article-title") content,
     findFirst (fun n => classAttrContains n "title") content,
     findFirst (fun n => classAttrContains n "headline") content]

/-- `_remove_elements_before_title` (web_client.py 529-550): walk the
content area's element children in order (`find`, then
`find_next_sibling`; text nodes are not Tags and are skipped); an element
that is the title or contains it stops the walk (the loop's `break` /
exit condition), everything walked before it is decomposed. -/
def truncateBeforeTitle (title : HNode) : HNode → HNode
  | .elem t a c nx =>
      if eqOwn (.elem t a c nx) title || containsTitle title (.elem t a c nx)
      then .elem t a c nx
      else truncateBeforeTitle title nx
  | .textNode s nx => .textNode s (truncateBeforeTitle title nx)
  | .comment s nx => .comment s (truncateBeforeTitle title nx)
  | .stop => .stop

/-- Replace the first (document-order) occurrence of a node equal to
`tgt` by `rep` (keeping the original's siblings); returns whether a
replacement happened.  Used to put the truncated content area back in
place, modelling the in-place mutation of the source. -/
def replaceFirst (tgt rep : HNode) : HNode → HNode × Bool
  | .elem t a c nx =>
      if eqOwn (.elem t a c nx) tgt then (setNext rep nx, true)
      else
        let rc := replaceFirst tgt rep c
        if rc.2 then (.elem t a rc.1 nx, true)
        else
          let rn := replaceFirst tgt rep nx
          (.elem t a c rn.1, rn.2)
  | .textNode s nx =>
      let rn := replaceFirst tgt rep nx
      (.textNode s rn.1, rn.2)
  | .comment s nx =>
      let rn := replaceFirst tgt rep nx
      (.comment s rn.1, rn.2)
  | .stop => (.stop, false)

/-- The class-pattern pass then the id-pattern pass of
`_remove_non_main_content` (web_client.py 431-453).  The class value is
the multi-valued list joined with spaces, skipped when the list is empty
(`if classes:`); the id is skipped when empty (`if element_id and ...`). -/
def removeNonContentPatterns (d : HNode) : HNode :=
  let d := prune (fun n =>
    match getAttr n "class" with
    | some cl =>
        if (pySplit cl).isEmpty then false
        else nonContentPatternMatch (pyJoinSpace (pySplit cl))
    | none => false) d
  prune (fun n =>
    match getAttr n "id" with
    | some i => !i.isEmpty && nonContentPatternMatch i
    | none => false) d

/-- `_remove_non_main_content(soup)` (web_client.py 388-453): structural
removal, then main-content/title location and title truncation (applied
in place to the located area, or to the whole document when the fallback
is the soup itself), then the class/id pattern removal. -/
def removeNonMainContent (doc : HNode) : HNode :=
  let d := removeStructuralNMC doc
  let d :=
    match findMainContentArea d with
    | some mc =>
        (match findArticleTitle (childOf mc) with
         | some title =>
             (replaceFirst mc (setChild mc (truncateBeforeTitle title (childOf mc))) d).1
         | none => d)
    | none =>
        (match findArticleTitle d with
         | some title => truncateBeforeTitle title d
         | none => d)
  removeNonContentPatterns d

/-! ### `_aggressive_clean_html` (web_client.py 47-172) -/

/-- The `ad_patterns` list (web_client.py 70-92), case-insensitive:
`.*ad[s]?[-_].*` is an occurrence of "ad-", "ad_", "ads-" or "ads_";
`.*more.*stories.*` is a two-part sequence; the rest are `.*word.*`
occurrence tests. -/
def adPatternMatch (s : Str) : Bool :=
  let l := toLowerStr s
  containsSub "ad-".toList l || containsSub "ad_".toList l ||
  containsSub "ads-".toList l || containsSub "ads_".toList l ||
  containsSub "advertisement".toList l || containsSub "banner".toList l ||
  containsSub "sponsor".toList l || containsSub "promo".toList l ||
  containsSub "commercial".toList l || containsSub "marketing".toList l ||
  containsSub "social".toList l || containsSub "share".toList l ||
  containsSub "facebook".toList l || containsSub "twitter".toList l ||
  containsSub "linkedin".toList l || containsSub "instagram".toList l ||
  containsSub "youtube".toList l || containsSub "pinterest".toList l ||
  containsSub "nav".toList l || containsSub "menu".toList l ||
  containsSub "sidebar".toList l || containsSub "header".toList l ||
  containsSub "footer".toList l || containsSub "breadcrumb".toList l ||
  containsSub "pagination".toList l || containsSub "pager".toList l ||
  containsSub "comment".toList l || containsSub "reply".toList l ||
  containsSub "discussion".toList l || containsSub "feedback".toList l ||
  containsSub "widget".toList l || containsSub "plugin".toList l ||
  containsSub "popup".toList l || containsSub "modal".toList l ||
  containsSub "overlay".toList l || containsSub "newsletter".toList l ||
  containsSub "subscribe".toList l || containsSub "signup".toList l ||
  containsSub "login".toList l || containsSub "related".toList l ||
  containsSub "recommend".toList l || containsSub "suggest".toList l ||
  containsSub "similar".toList l || subSeq "more".toList "stories".toList l ||
  containsSub "trending".toList l || containsSub "popular".toList l ||
  containsSub "meta".toList l || containsSub "track".toList l ||
  containsSub "analytics".toList l || containsSub "pixel".toList l ||
  containsSub "cookie".toList l || containsSub "privacy".toList l ||
  containsSub "gdpr".toList l || containsSub "consent".toList l

/-- `int(re.search(r'\d+', str(v)).group())`: the first run of digits of
the attribute value, `none` when there is no digit (the `AttributeError`
that the source catches and ignores). -/
def firstNat (s : Str) : Option Nat :=
  match s.dropWhile (fun c => !c.isDigit) with
  | [] => none
  | c :: rest => some (((c :: rest).takeWhile Char.isDigit).foldl
      (fun a d => a * 10 + (d.toNat - 48)) 0)

/-- The fixed table of standard ad-unit dimensions (web_client.py 143-146). -/
def adSizes : List (Nat × Nat) :=
  [(728, 90), (300, 250), (336, 280), (320, 50), (468, 60),
   (970, 250), (300, 600), (320, 100), (970, 90), (160, 600)]

def adSizePred (n : HNode) : Bool :=
  match getAttr n "width", getAttr n "height" with
  | some w, some h =>
      match firstNat w, firstNat h with
      | some wn, some hn => adSizes.contains (wn, hn)
      | _, _ => false
  | _, _ => false

def meaningfulTags : List String :=
  ["p", "h1", "h2", "h3", "h4", "h5", "h6", "li", "td", "th"]

/-- Pass 10 of the aggressive cleaner (web_client.py 158-167): a
`div/span/section/article` with under 3 characters of visible text and no
meaningful descendant. -/
def smallTextPred (n : HNode) : Bool :=
  tagInList n ["div", "span", "section", "article"] &&
  decide ((getTextOwn n).length < 3) &&
  !anyNode (fun m => tagInList m meaningfulTags) (childOf n)

/-- Final pass of the aggressive cleaner (web_client.py 169-172): no
visible text and no embedded media descendant. -/
def emptyPred (n : HNode) : Bool :=
  (getTextOwn n).isEmpty &&
  !anyNode (fun m => tagInList m ["img", "video", "audio"]) (childOf n)

/-- `_aggressive_clean_html(soup)` (web_client.py 47-172): the ordered
passes of the source. -/
def aggressiveCleanHtml (d : HNode) : HNode :=
  let d := prune (fun n => tagInList n ["script", "style", "noscript"]) d
  let d := prune (fun n => tagInList n
    ["nav", "header", "footer", "aside", "menu", "menuitem", "toolbar",
     "banner", "complementary", "contentinfo", "navigation", "search"]) d
  let d := prune (fun n =>
    match getAttr n "class" with
    | some cl => adPatternMatch (pyJoinSpace (pySplit cl))
    | none => false) d
  let d := prune (fun n =>
    match getAttr n "id" with
    | some i => adPatternMatch i
    | none => false) d
  let d := prune (fun n => roleInList n
    ["banner", "navigation", "complementary", "contentinfo", "search",
     "form", "dialog", "alertdialog", "menu", "menubar"]) d
  let d := prune (fun n => tagInList n
    ["form", "input", "button", "select", "textarea", "fieldset"]) d
  let d := prune (fun n => tagInList n ["iframe", "embed", "object", "applet"]) d
  let d := prune adSizePred d
  let d := pruneComments d
  let d := prune smallTextPred d
  prune emptyPred d

/-- The cleaning applied by `get_webpage_text` (web_client.py 352-360):
`_remove_non_main_content` always runs; then either the aggressive
cleaner or the basic script/style removal. -/
def getWebpageTextClean (aggressive : Bool) (doc : HNode) : HNode :=
  let d := removeNonMainContent doc
  if aggressive then aggressiveCleanHtml d
  else prune (fun n => tagInList n ["script", "style"]) d

/-! ### Concrete document fixtures -/

def chainOf : List HNode → HNode
  | [] => .stop
  | n :: rest => setNext n (chainOf rest)

def el (t : String) (attrs : List (String × String)) (children : List HNode) : HNode :=
  .elem t.toList (attrs.map (fun p => (p.1.toList, p.2.toList))) (chainOf children) .stop

def txt (s : String) : HNode := .textNode s.toList .stop

def containsTag (t : String) (d : HNode) : Bool := anyNode (tagIs t) d

def containsClassToken (cls : String) (d : HNode) : Bool :=
  anyNode (fun n => classTokenIs n cls) d

def containsText (s : String) (d : HNode) : Bool :=
  anyNode (fun n =>
    match n with
    | .textNode t _ => t = s.toList
    | _ => false) d

/-- The C5 fixture: a document with a `<nav>` (with content) and a
`<div class="social-share">` (with content) next to a paragraph. -/
def exTreeC5 : HNode :=
  chainOf [el "html" [] [el "body" [] [
    el "nav" [] [txt "Home"],
    el "div" [("class", "social-share")] [txt "Share"],
    el "p" [] [txt "hello"]]]]

/-- The C7 counterexample fixture: the pre-title `<div>junk text</div>`
is nested, together with the `<h1>`, inside a `<section>`. -/
def exTreeC7nested : HNode :=
  chainOf [el "html" [] [el "body" [] [
    el "section" [] [el "div" [] [txt "junk text"], el "h1" [] [txt "Article Title"]],
    el "p" [] [txt "body text"]]]]

/-- The C7 spec-example fixture: `<header>`, an unrelated `<div>text</div>`,
then the `<h1>` and a following paragraph. -/
def exTreeC7spec : HNode :=
  chainOf [el "html" [] [el "body" [] [
    el "header" [] [txt "masthead"],
    el "div" [] [txt "text"],
    el "h1" [] [txt "Article Title"],
    el "p" [] [txt "more"]]]]

/-- Expected result for `exTreeC7spec`: header and pre-title div gone,
title and what follows kept. -/
def exTreeC7expected : HNode :=
  chainOf [el "html" [] [el "body" [] [
    el "h1" [] [txt "Article Title"],
    el "p" [] [txt "more"]]]]

/-- A document with no locatable title. -/
def exTreeC7noTitle : HNode :=
  chainOf [el "html" [] [el "body" [] [
    el "div" [] [txt "alpha"], el "div" [] [txt "beta"]]]]

/-! ### Claims C5 and C7 -/

/-- C5 is false as stated: with aggressive cleaning DISABLED, the
`<div class="social-share">` does not survive `get_webpage_text`'s
cleaning — `_remove_non_main_content` runs unconditionally and its
pattern list contains `.*share.*` and `.*social.*`, so the div (and its
content) is removed anyway. -/
theorem C5_counterexample :
    containsTag "nav" exTreeC5 = true ∧
    containsClassToken "social-share" exTreeC5 = true ∧
    containsClassToken "social-share" (getWebpageTextClean false exTreeC5) = false ∧
    containsText "Share" (getWebpageTextClean false exTreeC5) = false := by
  decide

/-- C5 amended: after `get_webpage_text`'s cleaning with aggressive
cleaning enabled, neither the `<nav>` node nor the
`<div class="social-share">` node (nor their contents) remains; with
aggressive cleaning disabled the `<nav>` is still removed, and the
social-share div is removed as well (by the unconditional non-main-content
pattern pass); unrelated content (the paragraph text) survives in both
modes. -/
theorem C5_sanitizer_removal :
    (containsTag "nav" (getWebpageTextClean true exTreeC5) = false ∧
     containsClassToken "social-share" (getWebpageTextClean true exTreeC5) = false ∧
     containsText "Home" (getWebpageTextClean true exTreeC5) = false ∧
     containsText "Share" (getWebpageTextClean true exTreeC5) = false) ∧
    (containsTag "nav" (getWebpageTextClean false exTreeC5) = false ∧
     containsClassToken "social-share" (getWebpageTextClean false exTreeC5) = false ∧
     containsText "Home" (getWebpageTextClean false exTreeC5) = false ∧
     containsText "Share" (getWebpageTextClean false exTreeC5) = false) ∧
    containsText "hello" (getWebpageTextClean true exTreeC5) = true ∧
    containsText "hello" (getWebpageTextClean false exTreeC5) = true := by
  decide

/-- C7 is false as stated: in `exTreeC7nested` the content root is the
`<body>`, a title (`<h1>`) is found, and the `<div>junk text</div>`
occurs strictly before the title in document order without containing
it — yet the truncation removes nothing, because the walk stops at the
first element that contains the title (`<section>`) and never descends
into it. -/
theorem C7_counterexample :
    findMainContentArea exTreeC7nested =
      some (el "body" [] [
        el "section" [] [el "div" [] [txt "junk text"], el "h1" [] [txt "Article Title"]],
        el "p" [] [txt "body text"]]) ∧
    findArticleTitle (childOf (el "body" [] [
        el "section" [] [el "div" [] [txt "junk text"], el "h1" [] [txt "Article Title"]],
        el "p" [] [txt "body text"]])) = some (el "h1" [] [txt "Article Title"]) ∧
    removeNonMainContent exTreeC7nested = exTreeC7nested ∧
    containsText "junk text" (removeNonMainContent exTreeC7nested) = true := by
  decide

/-- C7 amended: when a title is found, the truncation walks the content
root's child elements in order and removes each element that neither is
nor contains the title, stopping at the first element that is the title
or contains it as a descendant; pre-title nodes nested inside such a
container are retained.  In particular, an unrelated `<div>text</div>`
sibling preceding the `<h1>` is removed while the `<h1>` and everything
after or inside it remains; when no title is found the content root is
left as-is. -/
theorem C7_title_truncation :
    removeNonMainContent exTreeC7spec = exTreeC7expected ∧
    removeNonMainContent exTreeC7noTitle = exTreeC7noTitle := by
  decide
